import Mathlib

/-!
# FindBetterFriends: validator table, parallel view, sunburst view

A shallow embedding of the interaction logic of

* `src/components/ValidatorTable.jsx` (row derivation, sorting, removal, select all),
* `src/components/graph/Parallel.jsx` (axis keys, axis selection, zoom),
* `src/components/graph/IndividualSunburst.jsx` (participation rate, centre label,
  redraw effect),

followed by theorems about it.

Modelling conventions.

* JavaScript numbers are finite IEEE doubles, which are rationals (`ℚ`).  The table
  uses only their order and the sign of a difference.  Where the code divides,
  multiplies or adds, the exact result is rounded to the nearest double
  (`roundDouble`, round-half-even on a 53-bit significand).
* `undefined` and `null` are `none`.
* `Array.prototype.sort` is stable (ECMAScript 2019); it is modelled by the stable
  insertion sort on the relation "the comparator's result is not positive".
* The store (`store/store.js`) and the collation behind `localeCompare` are not part
  of the sources; they enter as parameters.
-/

namespace FindBetterFriends

/-! ## Data model -/

/-- A cluster label of the data files: a string or a number. -/
inductive ClusterLabel where
  | str (s : String)
  | num (q : ℚ)
  deriving DecidableEq

/-- One record of `validator_result_<chain>.json`.  The three rate fields may be
missing; `pairwise` holds the remaining fields, keyed by another validator's id. -/
structure ValidatorRecord where
  voter : String
  cluster_label : Option ClusterLabel
  overall_match_rate : Option ℚ
  cluster_match_rate : Option ℚ
  participation_rate : Option ℚ
  pairwise : List (String × ℚ)
  deriving DecidableEq

/-- One row of the table. -/
structure DisplayRow where
  validator : String
  matchRate : ℚ
  cluster : Option ClusterLabel
  overallMatchRate : ℚ
  clusterMatchRate : ℚ
  participationRate : ℚ
  deriving DecidableEq

/-- The columns of the table, which are the sort keys. -/
inductive SortKey where
  | validator
  | matchRate
  | cluster
  | overallMatchRate
  | clusterMatchRate
  | participationRate
  deriving DecidableEq

/-- Sort direction. -/
inductive Direction where
  | asc
  | desc
  deriving DecidableEq

/-- The `sortConfig` state of the table. -/
structure SortConfig where
  key : SortKey
  direction : Direction
  deriving DecidableEq

/-- The initial `sortConfig`: `{ key: 'matchRate', direction: 'desc' }`. -/
def initialSortConfig : SortConfig := ⟨SortKey.matchRate, Direction.desc⟩

/-- Component state of `ValidatorTable`. -/
structure TableState where
  validatorData : List DisplayRow
  selectedRows : List String
  sortConfig : SortConfig
  deriving DecidableEq

/-! ## JavaScript helpers -/

/-- The expression `x || 0` on an optional number: a missing value and the number 0 are
falsy and give 0, every other number gives itself. -/
def orZero : Option ℚ → ℚ
  | none => 0
  | some q => if q = 0 then 0 else q

/-- Truthiness of an optional string: `null`, `undefined` and `''` are falsy. -/
def truthyStr : Option String → Bool
  | none => false
  | some s => decide (s ≠ "")

/-- The lookup `record[validator]` among the pairwise fields. -/
def ValidatorRecord.field (r : ValidatorRecord) (key : String) : Option ℚ :=
  (r.pairwise.find? (fun kv => decide (kv.1 = key))).map Prod.snd

/-- The lookup `data.find((item) => item.voter === v)`. -/
def findVoter (data : List ValidatorRecord) (v : String) : Option ValidatorRecord :=
  data.find? (fun item => decide (item.voter = v))

/-! ## Double-precision arithmetic -/

/-- Rounding of a rational to the nearest integer, ties to the even one. -/
def roundHalfEven (m : ℚ) : ℤ :=
  let f := ⌊m⌋
  if m - f < 1 / 2 then f else if 1 / 2 < m - f then f + 1 else if f % 2 = 0 then f else f + 1

/-- The exponent of the last significand bit of the double nearest to `q`: 52 below the
binary exponent of `q`, and no less than -1074 (subnormal numbers). -/
def binaryExponent (q : ℚ) : ℤ := max (Int.log 2 |q| - 52) (-1074)

/-- The IEEE 754 double nearest to a rational (round to nearest, ties to even), for
magnitudes below 2^1024. -/
def roundDouble (q : ℚ) : ℚ :=
  if q = 0 then 0
  else
    (if q < 0 then -1 else 1) * (roundHalfEven (|q| / 2 ^ binaryExponent q) : ℚ)
      * 2 ^ binaryExponent q

/-- The operator `/` on doubles, for a divisor other than 0. -/
def fdiv (a b : ℚ) : ℚ := roundDouble (a / b)

/-- The operator `*` on doubles. -/
def fmul (a b : ℚ) : ℚ := roundDouble (a * b)

/-- The operator `+` on doubles. -/
def fadd (a b : ℚ) : ℚ := roundDouble (a + b)

/-! ## ValidatorTable: loading rows -/

/-- The expression `baseValidator || selectedValidators[0]`. -/
def currentBaseValidator (baseValidator : Option String) (selectedValidators : List String) :
    Option String :=
  if truthyStr baseValidator then baseValidator else selectedValidators.head?

/-- The row of the single-validator branch and the base row of the multi-validator
branch: match rate 1, the other fields from the validator's own record. -/
def ownRow (validator : String) (info : ValidatorRecord) : DisplayRow :=
  { validator := validator
    matchRate := 1
    cluster := info.cluster_label
    overallMatchRate := orZero info.overall_match_rate
    clusterMatchRate := orZero info.cluster_match_rate
    participationRate := orZero info.participation_rate }

/-- The row built for a selected validator other than the base. -/
def otherRow (data : List ValidatorRecord) (baseValidatorData : ValidatorRecord)
    (validator : String) : DisplayRow :=
  let validatorInfo := findVoter data validator
  { validator := validator
    matchRate := orZero (baseValidatorData.field validator)
    cluster := match validatorInfo with
      | some info => info.cluster_label
      | none => some (ClusterLabel.str "N/A")
    overallMatchRate := orZero (validatorInfo.bind fun i => i.overall_match_rate)
    clusterMatchRate := orZero (validatorInfo.bind fun i => i.cluster_match_rate)
    participationRate := orZero (validatorInfo.bind fun i => i.participation_rate) }

/-- The callback `.then((data) => ...)` of the load effect: the new `validatorData`,
given the previous one. -/
def onFetched (selectedValidators : List String) (baseValidator : Option String)
    (prev : List DisplayRow) (data : List ValidatorRecord) : List DisplayRow :=
  match selectedValidators with
  | [singleValidator] =>
    match findVoter data singleValidator with
    | some validatorInfo => [ownRow singleValidator validatorInfo]
    | none => prev
  | _ =>
    match currentBaseValidator baseValidator selectedValidators with
    | none => []
    | some cur =>
      match findVoter data cur with
      | none => []
      | some baseValidatorData =>
        ownRow cur baseValidatorData ::
          (selectedValidators.filter (fun v => decide (v ≠ cur))).map
            (otherRow data baseValidatorData)

/-- The load effect of `ValidatorTable`.  `response` is the parsed body of the fetch,
`none` when the fetch or the parse fails (the `.catch` branch). -/
def loadEffect (selectedChain : Option String) (selectedValidators : List String)
    (baseValidator : Option String) (response : Option (List ValidatorRecord))
    (st : TableState) : TableState :=
  if !truthyStr selectedChain || selectedValidators.length == 0 then
    { st with validatorData := [], selectedRows := [] }
  else
    match response with
    | some data =>
      { st with validatorData := onFetched selectedValidators baseValidator st.validatorData data }
    | none => { st with validatorData := [] }

/-! ## ValidatorTable: sorting -/

/-- The string operations of the host that sorting uses:
`String.prototype.toLowerCase` and `String.prototype.localeCompare` (key `validator`),
and the conversion `String(x)` of a number (key `cluster`). -/
structure Collation where
  toLowerCase : String → String
  localeCompare : String → String → Int
  numberToString : ℚ → String

/-- A collation is consistent when `localeCompare` is transitive and swapping its
arguments swaps the sign of its result, as every locale's collation does. -/
def Collation.Consistent (env : Collation) : Prop :=
  (∀ a b c, env.localeCompare a b ≤ 0 → env.localeCompare b c ≤ 0 → env.localeCompare a c ≤ 0) ∧
  (∀ a b, 0 ≤ env.localeCompare a b ↔ env.localeCompare b a ≤ 0)

/-- The conversion `String(label)`: a string is itself, a number is printed by the host. -/
def ClusterLabel.toText (env : Collation) : ClusterLabel → String
  | ClusterLabel.str s => s
  | ClusterLabel.num q => env.numberToString q

/-- Falsiness of a label: the empty string and the number 0. -/
def ClusterLabel.falsy : ClusterLabel → Bool
  | ClusterLabel.str s => decide (s = "")
  | ClusterLabel.num q => decide (q = 0)

/-- The expression `String(a.cluster || '')`: a missing label, the empty string and
the number 0 are falsy and give the empty string. -/
def clusterText (env : Collation) : Option ClusterLabel → String
  | none => ""
  | some label => if label.falsy then "" else label.toText env

/-- The match of `/\d+/`: the first maximal run of ASCII digits, if there is one. -/
def firstDigitRun (cs : List Char) : Option (List Char) :=
  match (cs.dropWhile (fun c => !c.isDigit)).takeWhile Char.isDigit with
  | [] => none
  | d :: ds => some (d :: ds)

/-- The value `parseInt` gives to a run of ASCII digits: its base-10 value, which is a
double when it is below 2^53. -/
def parseDigits (ds : List Char) : Nat :=
  ds.foldl (fun acc c => 10 * acc + (c.toNat - 48)) 0

/-- The number the `cluster` branch of the comparator computes for a row:
`match ? parseInt(match[0]) : -1`. -/
def clusterNumber (env : Collation) (cluster : Option ClusterLabel) : Int :=
  match firstDigitRun (clusterText env cluster).data with
  | some ds => (parseDigits ds : Int)
  | none => -1

/-- The expression `a[key] || 0` on a numeric field of a row. -/
def numOrZero (q : ℚ) : ℚ := if q = 0 then 0 else q

/-- The numeric field of a row that a key names (for the four numeric keys). -/
def DisplayRow.num (a : DisplayRow) : SortKey → ℚ
  | SortKey.matchRate => a.matchRate
  | SortKey.overallMatchRate => a.overallMatchRate
  | SortKey.clusterMatchRate => a.clusterMatchRate
  | SortKey.participationRate => a.participationRate
  | _ => 0

/-- The value `comparison` in the comparator of `sortValidatorData`. -/
def comparison (env : Collation) (key : SortKey) (a b : DisplayRow) : ℚ :=
  match key with
  | SortKey.cluster => ((clusterNumber env a.cluster - clusterNumber env b.cluster : Int) : ℚ)
  | SortKey.validator =>
    ((env.localeCompare (env.toLowerCase a.validator) (env.toLowerCase b.validator) : Int) : ℚ)
  | k => numOrZero (a.num k) - numOrZero (b.num k)

/-- The comparator of `sortValidatorData`:
`direction === 'asc' ? comparison : -comparison`. -/
def compareRows (env : Collation) (key : SortKey) (direction : Direction) (a b : DisplayRow) : ℚ :=
  if direction = Direction.asc then comparison env key a b else -(comparison env key a b)

/-- The function `sortValidatorData`: a stable sort of a copy of `data` by the comparator. -/
def sortValidatorData (env : Collation) (data : List DisplayRow) (key : SortKey)
    (direction : Direction) : List DisplayRow :=
  data.insertionSort (fun a b => compareRows env key direction a b ≤ 0)

/-- What `handleSort` does: either the alert of the guard, or the new `sortConfig` and
the new `validatorData`.  An entry `none` is JavaScript's `undefined`. -/
inductive SortOutcome where
  | alert
  | updated (sortConfig : SortConfig) (validatorData : List (Option DisplayRow))

/-- The direction `handleSort` chooses. -/
def newDirection (sortConfig : SortConfig) (key : SortKey) : Direction :=
  if sortConfig.key = key then
    (if sortConfig.direction = Direction.asc then Direction.desc else Direction.asc)
  else Direction.desc

/-- The updater `(prevData) => { const [first, ...rest] = prevData; ... }` of
`handleSort`.  Destructuring an empty array binds `first` to `undefined`. -/
def sortUpdater (env : Collation) (key : SortKey) (direction : Direction)
    (prevData : List DisplayRow) : List (Option DisplayRow) :=
  let first := prevData.head?
  let rest := prevData.tail
  first :: (sortValidatorData env rest key direction).map some

/-- The handler `handleSort`. -/
def handleSort (env : Collation) (selectedChain : Option String)
    (selectedValidators : List String) (sortConfig : SortConfig) (prevData : List DisplayRow)
    (key : SortKey) : SortOutcome :=
  if !truthyStr selectedChain || selectedValidators.length == 0 then
    SortOutcome.alert
  else
    SortOutcome.updated ⟨key, newDirection sortConfig key⟩
      (sortUpdater env key (newDirection sortConfig key) prevData)

/-! ## ValidatorTable: removing rows -/

/-- The part of the store that `handleRemoveSelected` writes, with the table's
`selectedRows`. -/
structure Selection where
  selectedValidators : List String
  baseValidator : Option String
  selectedRows : List String
  deriving DecidableEq

/-- The handler `handleRemoveSelected`.  The store's `setSelectedValidators` and
`setBaseValidator` are taken to assign the field they name. -/
def handleRemoveSelected (s : Selection) : Selection :=
  let remainingValidators := s.selectedValidators.filter (fun v => !s.selectedRows.contains v)
  let includesBase := match s.baseValidator with
    | some b => s.selectedRows.contains b
    | none => false
  { selectedValidators := remainingValidators
    selectedRows := []
    baseValidator := if includesBase then remainingValidators.head? else s.baseValidator }

/-! ## ValidatorTable: select all -/

/-- The handler `handleSelectAll`: the new `selectedRows`.  `slice(1)` drops row 0. -/
def handleSelectAll (validatorData : List DisplayRow) (selectedRows : List String) :
    List String :=
  if selectedRows.length = (validatorData.drop 1).length then []
  else (validatorData.drop 1).map (fun data => data.validator)

/-! ## Parallel view -/

/-- A value of a field of a vote record: a string (voter id, vote code) or a number. -/
inductive FieldVal where
  | str (s : String)
  | num (q : ℚ)
  deriving DecidableEq

/-- A record of the parallel view's data: an object, as the list of its key/value
pairs in insertion order, each key once. -/
abbrev VoteRecord := List (String × FieldVal)

/-- The property access `record[key]`; `none` is `undefined`. -/
def VoteRecord.get (r : VoteRecord) (key : String) : Option FieldVal :=
  (r.find? (fun kv => decide (kv.1 = key))).map Prod.snd

/-- The test `list.includes(record.voter)` (and `set.has(record.voter)`) for a list of
strings: only a string value can be a member. -/
def includesVoter (list : List String) (r : VoteRecord) : Bool :=
  match r.get "voter" with
  | some (FieldVal.str v) => list.contains v
  | _ => false

/-- The white space that `parseInt` skips: the `WhiteSpace` and `LineTerminator` code
points of ECMAScript. -/
def isJsWhiteSpace (c : Char) : Bool :=
  let n := c.toNat
  n = 0x9 || n = 0xA || n = 0xB || n = 0xC || n = 0xD || n = 0x20 || n = 0xA0 || n = 0x1680 ||
    (0x2000 ≤ n && n ≤ 0x200A) || n = 0x2028 || n = 0x2029 || n = 0x202F || n = 0x205F ||
    n = 0x3000 || n = 0xFEFF

/-- The value of a character as a digit of the radix, if it is one. -/
def radixDigit (radix : Nat) (c : Char) : Option Nat :=
  let n := c.toNat
  let v :=
    if 48 ≤ n ∧ n ≤ 57 then some (n - 48)
    else if 97 ≤ n ∧ n ≤ 122 then some (n - 87)
    else if 65 ≤ n ∧ n ≤ 90 then some (n - 55)
    else none
  match v with
  | some d => if d < radix then some d else none
  | none => none

/-- The function `parseInt(string)` without a radix; `none` is `NaN`. -/
def parseInt (cs : List Char) : Option Int :=
  let s := cs.dropWhile isJsWhiteSpace
  let negative := s.head? = some '-'
  let s := match s with
    | '-' :: t => t
    | '+' :: t => t
    | _ => s
  let hex := match s with
    | '0' :: 'x' :: _ => true
    | '0' :: 'X' :: _ => true
    | _ => false
  let radix := if hex then 16 else 10
  let s := if hex then s.drop 2 else s
  let z := s.takeWhile (fun c => (radixDigit radix c).isSome)
  if z.isEmpty then none
  else
    let value : Nat := z.foldl (fun acc c => radix * acc + (radixDigit radix c).getD 0) 0
    some (if negative then -(value : Int) else (value : Int))

/-- The expression `key.split('_').pop()`: the text after the last underscore. -/
def lastSegment (cs : List Char) : List Char :=
  (cs.reverse.takeWhile (fun c => decide (c ≠ '_'))).reverse

/-- The test `/^[a-z_]+\d+$/.test(key)`. -/
def matchesAxisPattern (cs : List Char) : Bool :=
  let isWord := fun (c : Char) => c.isLower || decide (c = '_')
  let head := cs.takeWhile isWord
  let tail := cs.dropWhile isWord
  !head.isEmpty && !tail.isEmpty && tail.all Char.isDigit

/-- The filter of `chainKeys`: which keys of a record are proposal axes. -/
def isChainKey (key : String) : Bool :=
  if key = "voter" ∨ key = "cluster_label" then false
  else if "gravity-bridge_".data.isPrefixOf key.data then true
  else matchesAxisPattern key.data

/-- The comparator of `chainKeys`: `numA - numB`, `none` when it is `NaN`. -/
def chainKeyCompare (a b : String) : Option Int :=
  match parseInt (lastSegment a.data), parseInt (lastSegment b.data) with
  | some numA, some numB => some (numA - numB)
  | _, _ => none

/-- The relation the sort of `chainKeys` works with: the comparator's result is not
positive, where the sort reads `NaN` as 0. -/
def chainKeyLe (a b : String) : Prop :=
  match chainKeyCompare a b with
  | some d => d ≤ 0
  | none => True

instance (a b : String) : Decidable (chainKeyLe a b) := by
  unfold chainKeyLe
  cases chainKeyCompare a b <;> infer_instance

/-- The list `chainKeys` of a record. -/
def chainKeys (r : VoteRecord) : List String :=
  ((r.map Prod.fst).filter isChainKey).insertionSort chainKeyLe

/-- The list `selectedData`: the records of validators that are selected and not hidden. -/
def selectedData (data : List VoteRecord) (selectedValidators hiddenValidators : List String) :
    List VoteRecord :=
  data.filter (fun validator =>
    includesVoter selectedValidators validator && !includesVoter hiddenValidators validator)

/-- The test of `divergentChains`: `new Set(selectedData.map(v => v[chain])).size > 1`. -/
def isDivergent (selected : List VoteRecord) (chain : String) : Bool :=
  decide ((selected.map (fun validator => validator.get chain)).toFinset.card > 1)

/-- The list `divergentChains`. -/
def divergentChains (selected : List VoteRecord) : List String :=
  match selected.head? with
  | some first => (chainKeys first).filter (isDivergent selected)
  | none => []

/-- What the SVG of the parallel view holds.  Of a chart, the axis domain is kept. -/
inductive SvgContent where
  | blank
  | message (text : String)
  | chart (axes : List String)
  deriving DecidableEq

/-- The placeholder shown when no selected validator is visible. -/
def noValidatorText : String := "표시할 검증인이 없습니다."

/-- The placeholder shown when the visible validators agree on every proposal. -/
def allMatchText : String := "모든 선택된 검증인의 투표가 일치합니다."

/-- The draw effect of `Parallel`, with the SVG mounted.  `prev` is what the SVG held. -/
def renderParallel (data : Option (List VoteRecord))
    (selectedValidators hiddenValidators : List String) (prev : SvgContent) : SvgContent :=
  match data with
  | none => prev
  | some data =>
    if data.length == 0 || selectedValidators.length == 0 then prev
    else
      let selected := selectedData data selectedValidators hiddenValidators
      if selected.length == 0 then SvgContent.message noValidatorText
      else if (divergentChains selected).length == 0 then SvgContent.message allMatchText
      else SvgContent.chart ("Cluster" :: divergentChains selected ++ ["End"])

/-! ## Sunburst view -/

/-- A proposal of the sunburst's `data`.  `id` is the text that the template literal
`${proposal.id}` yields. -/
structure Proposal where
  id : String
  title : String
  type : Option String
  deriving DecidableEq

/-- Truthiness of a field value: `undefined`, `''` and 0 are falsy. -/
def truthyVal : Option FieldVal → Bool
  | none => false
  | some (FieldVal.str s) => decide (s ≠ "")
  | some (FieldVal.num q) => decide (q ≠ 0)

/-- The key `${selectedChain}_${proposal.id}`. -/
def proposalKey (selectedChain : String) (proposal : Proposal) : String :=
  selectedChain ++ "_" ++ proposal.id

/-- The function `calculateParticipationRate`.  `isValidatorHidden` is the store's
test, `validator`, `data` and `parallelData` are the component's props (`none` is
`null` or `undefined`); the result `none` is `NaN`. -/
def calculateParticipationRate (isValidatorHidden : String → Bool) (selectedChain : String)
    (validator : Option String) (data : Option (List Proposal))
    (parallelData : Option (List VoteRecord)) : Option ℚ :=
  match validator, data, parallelData with
  | some validator, some data, some parallelData =>
    if validator = "" || isValidatorHidden validator then some 0
    else
      match parallelData.find? (fun d => decide (d.get "voter" = some (FieldVal.str validator))) with
      | none => some 0
      | some validatorData =>
        let totalProposals := data.length
        let participatedProposals : Nat := data.foldl (fun count proposal =>
          let vote := validatorData.get (proposalKey selectedChain proposal)
          if truthyVal vote && decide (vote ≠ some (FieldVal.str "NO_VOTE")) then count + 1
          else count) 0
        if totalProposals = 0 then none
        else some (fmul (fdiv (participatedProposals : ℚ) (totalProposals : ℚ)) 100)
  | _, _, _ => some 0

/-- The number of proposals whose vote under the proposal key is present in the record
and not `NO_VOTE`. -/
def votedCount (selectedChain : String) (proposals : List Proposal) (record : VoteRecord) :
    Nat :=
  (proposals.filter (fun p =>
    (List.lookup (selectedChain ++ "_" ++ p.id) record).isSome &&
      decide (List.lookup (selectedChain ++ "_" ++ p.id) record
        ≠ some (FieldVal.str "NO_VOTE")))).length

/-- The participation rate in the words of the specification: 100 times the number of
proposals whose vote under the proposal key is present and not `NO_VOTE`, over the
number of proposals. -/
def participationFormula (selectedChain : String) (proposals : List Proposal)
    (record : VoteRecord) : ℚ :=
  100 * (votedCount selectedChain proposals record : ℚ) / (proposals.length : ℚ)

/-! ## Sunburst view: the centre label -/

/-- A JavaScript string as the list of its UTF-16 code units, which is what `length`,
`substring` and `lastIndexOf` count. -/
abbrev CodeUnits := List Nat

/-- The UTF-16 code units of a text: one unit for a character below U+10000, a
surrogate pair for any other. -/
def toUtf16 (s : String) : CodeUnits :=
  s.data.flatMap (fun c =>
    if c.toNat < 0x10000 then [c.toNat]
    else [0xD800 + (c.toNat - 0x10000) / 0x400, 0xDC00 + (c.toNat - 0x10000) % 0x400])

/-- The code unit of the space character. -/
def spaceUnit : Nat := 32

/-- The two lines of the centre label; `line2` is `none` for `null`. -/
structure NameLines where
  line1 : CodeUnits
  line2 : Option CodeUnits
  deriving DecidableEq

/-- The method `lastIndexOf(c)` on a list of code units; `none` is -1. -/
def lastIndexOf (c : Nat) : CodeUnits → Option Nat
  | [] => none
  | x :: xs =>
    match lastIndexOf c xs with
    | some i => some (i + 1)
    | none => if x = c then some 0 else none

/-- The function `splitValidatorName`; `substring(a, b)` is `drop a` of `take b`. -/
def splitValidatorName (name : CodeUnits) : NameLines :=
  if name.length ≤ 15 then { line1 := name, line2 := none }
  else
    let spaceIndex : Int :=
      match lastIndexOf spaceUnit (name.take 15) with
      | some i => (i : Int)
      | none => -1
    if spaceIndex > 0 then
      { line1 := name.take spaceIndex.toNat
        line2 := some (name.drop (spaceIndex.toNat + 1)) }
    else
      { line1 := name.take 15
        line2 := some (name.drop 15) }

/-- The split in the words of the specification: a name longer than 15 characters
breaks at the last space within its first 15 characters, the space dropped, and at
character 15 when those hold no space. -/
def splitAtLastSpace (name : CodeUnits) : NameLines :=
  if name.length ≤ 15 then { line1 := name, line2 := none }
  else
    match lastIndexOf spaceUnit (name.take 15) with
    | some i =>
      { line1 := name.take i
        line2 := some (name.drop (i + 1)) }
    | none =>
      { line1 := name.take 15
        line2 := some (name.drop 15) }

/-! ## Parallel view: zoom -/

/-- The constant `width` of the parallel view. -/
def viewWidth : ℚ := 870

/-- The constant `spacing` of the parallel view. -/
def spacing : ℚ := 100

/-- The value `totalWidth = (divergentChains.length + 2) * spacing`, for `n` divergent
axes. -/
def totalWidth (n : Nat) : ℚ := fmul (fadd (n : ℚ) 2) spacing

/-- The value `minScale = width / totalWidth`. -/
def minScale (n : Nat) : ℚ := fdiv viewWidth (totalWidth n)

/-- The argument of `scaleExtent`: `[minScale, 2]`. -/
def scaleExtent (n : Nat) : ℚ × ℚ := (minScale n, 2)

/-- The value `minX = -totalWidth * scale + width` of the zoom handler. -/
def zoomMinX (n : Nat) (scale : ℚ) : ℚ := fadd (fmul (-(totalWidth n)) scale) viewWidth

/-- The offset `x` that the zoom handler applies for a transform with scale `scale` and
horizontal translation `tx`: `Math.min(maxX, Math.max(minX, transform.x))`. -/
def zoomOffset (n : Nat) (scale tx : ℚ) : ℚ :=
  let maxX : ℚ := 0
  let minX : ℚ := zoomMinX n scale
  min maxX (max minX tx)

/-! ## Sunburst view: the redraw effect -/

/-- The function `getVoteTypeColor`, on the vote found in a record: the five vote codes
have a colour of their own, everything else is grey. -/
def getVoteTypeColor : FieldVal → String
  | FieldVal.str "YES" => "#2ecc71"
  | FieldVal.str "NO" => "#e74c3c"
  | FieldVal.str "NO_WITH_VETO" => "#f1c40f"
  | FieldVal.str "ABSTAIN" => "#3498db"
  | FieldVal.str "NO_VOTE" => "#95a5a6"
  | _ => "#95a5a6"

/-- The palette `d3.schemeCategory10`. -/
def schemeCategory10 : List String :=
  ["#1f77b4", "#ff7f0e", "#2ca02c", "#d62728", "#9467bd", "#8c564b", "#e377c2", "#7f7f7f",
    "#bcbd22", "#17becf"]

/-- What the redraw effect appends to the chart group: the arcs of the two rings and
the lines of the centre label.  The label of the cluster and the participation rate are
kept as values, not as formatted text. -/
inductive SunburstElement where
  | arc (depth : Nat) (name : String) (fill : String)
  | nameLine (text : CodeUnits)
  | clusterLine (label : Option FieldVal)
  | participationLine (rate : Option ℚ)
  deriving DecidableEq

/-- What the SVG of a sunburst holds: the size set on it and the elements drawn. -/
structure SunburstSvg where
  size : Option (ℚ × ℚ)
  elements : List SunburstElement
  deriving DecidableEq

/-- The expression `d.type || 'Unknown'`. -/
def typeName (d : Proposal) : String :=
  match d.type with
  | some t => if t = "" then "Unknown" else t
  | none => "Unknown"

/-- The expression `validatorData ? validatorData[proposalKey] || 'NO_VOTE' : 'NO_VOTE'`. -/
def voteResult (validatorData : Option VoteRecord) (key : String) : FieldVal :=
  match validatorData with
  | some record =>
    if truthyVal (record.get key) then (record.get key).getD (FieldVal.str "NO_VOTE")
    else FieldVal.str "NO_VOTE"
  | none => FieldVal.str "NO_VOTE"

/-- The elements a full redraw appends: one arc per proposal type (inner ring, coloured
by the palette in order of first appearance), one arc per proposal grouped by type
(outer ring, coloured by vote), then the centre label. -/
def drawSunburst (isValidatorHidden : String → Bool) (selectedChain validator : String)
    (data : List Proposal) (parallelData : List VoteRecord) : List SunburstElement :=
  let types := (data.map typeName).eraseDups
  let validatorData :=
    parallelData.find? (fun pd => decide (pd.get "voter" = some (FieldVal.str validator)))
  let inner := types.enum.map (fun it =>
    SunburstElement.arc 1 it.2 (schemeCategory10.getD (it.1 % 10) ""))
  let outer := types.flatMap (fun type =>
    (data.filter (fun d => decide (typeName d = type))).map (fun d =>
      SunburstElement.arc 2 d.title
        (getVoteTypeColor (voteResult validatorData (proposalKey selectedChain d)))))
  let lines := splitValidatorName (toUtf16 validator)
  let clusterLabel := match validatorData with
    | some record => record.get "cluster_label"
    | none => some (FieldVal.str "N/A")
  inner ++ outer ++ [SunburstElement.nameLine lines.line1] ++
    (match lines.line2 with
      | some line2 => if line2.isEmpty then [] else [SunburstElement.nameLine line2]
      | none => []) ++
    [SunburstElement.clusterLine clusterLabel,
      SunburstElement.participationLine
        (calculateParticipationRate isValidatorHidden selectedChain (some validator)
          (some data) (some parallelData))]

/-- The redraw effect of `IndividualSunburst`: what the SVG holds afterwards, given what
it held before.  The guard returns before anything is removed. -/
def sunburstEffect (isValidatorHidden : String → Bool) (selectedChain validator : String)
    (data : Option (List Proposal)) (parallelData : Option (List VoteRecord))
    (width height : ℚ) (prev : SunburstSvg) : SunburstSvg :=
  match data, parallelData with
  | some data, some parallelData =>
    if isValidatorHidden validator then prev
    else
      { size := some (width, height)
        elements := drawSunburst isValidatorHidden selectedChain validator data parallelData }
  | _, _ => prev

/-! ## Orders used in the statements -/

/-- The order a sort key puts on rows: by the collation of the lower-cased name, by
cluster number, or by the value of the field the key names. -/
def keyLe (env : Collation) (key : SortKey) (a b : DisplayRow) : Prop :=
  match key with
  | SortKey.validator =>
    env.localeCompare (env.toLowerCase a.validator) (env.toLowerCase b.validator) ≤ 0
  | SortKey.matchRate => a.matchRate ≤ b.matchRate
  | SortKey.cluster => clusterNumber env a.cluster ≤ clusterNumber env b.cluster
  | SortKey.overallMatchRate => a.overallMatchRate ≤ b.overallMatchRate
  | SortKey.clusterMatchRate => a.clusterMatchRate ≤ b.clusterMatchRate
  | SortKey.participationRate => a.participationRate ≤ b.participationRate

/-- The order of a key in a direction: the key order for `asc`, its converse for `desc`. -/
def dirLe (env : Collation) (key : SortKey) (direction : Direction) (a b : DisplayRow) : Prop :=
  match direction with
  | Direction.asc => keyLe env key a b
  | Direction.desc => keyLe env key b a

/-- The numeric suffix of a label's text, in the words of the specification: the value
of the run of digits that ends the text, if the text ends in a digit. -/
def numericSuffix (cs : List Char) : Option Nat :=
  match (cs.reverse.takeWhile Char.isDigit).reverse with
  | [] => none
  | d :: ds => some (parseDigits (d :: ds))

/-- A record of a visible validator: its `voter` is a string that is selected and not
hidden. -/
def visibleRecord (sel hidden : List String) (r : VoteRecord) : Bool :=
  match List.lookup "voter" r with
  | some (FieldVal.str v) => decide (v ∈ sel ∧ v ∉ hidden)
  | _ => false

/-- The plain decimal digits of a counting number. -/
def plainDigits (n : Nat) : String :=
  if n = 0 then "0" else String.mk ((Nat.digits 10 n).reverse.map Nat.digitChar)

/-- A row's label contains a number: the label is present and its text has a digit. -/
def LabelNumeric (env : Collation) (cluster : Option ClusterLabel) : Prop :=
  ∃ label, cluster = some label ∧ ∃ c ∈ (label.toText env).data, c.isDigit = true

/-- A row with the given name and cluster label (rates 0). -/
def exClusterRow (name : String) (label : ClusterLabel) : DisplayRow :=
  { validator := name, matchRate := 0, cluster := some label,
    overallMatchRate := 0, clusterMatchRate := 0, participationRate := 0 }

/-- The numeric value of a key's trailing id: the value of the run of digits that ends
the key (0 when the key does not end in a digit). -/
def trailingId (key : String) : Nat := (numericSuffix key.data).getD 0

/-! ## Example data -/

/-- Record of validator `A`: pairwise rates 1/5 with `B` and 9/10 with `C`. -/
def exRecA : ValidatorRecord :=
  { voter := "A", cluster_label := some (ClusterLabel.num 1),
    overall_match_rate := some (1 / 2), cluster_match_rate := some (3 / 4),
    participation_rate := some 1, pairwise := [("B", 1 / 5), ("C", 9 / 10)] }

/-- Record of validator `B`. -/
def exRecB : ValidatorRecord :=
  { voter := "B", cluster_label := some (ClusterLabel.num 2),
    overall_match_rate := some (1 / 4), cluster_match_rate := none,
    participation_rate := some (1 / 2), pairwise := [("A", 1 / 5), ("C", 1 / 10)] }

/-- A fetched record list with records for `A` and `B` and none for `C`. -/
def exData : List ValidatorRecord := [exRecA, exRecB]

/-- The selection `[A, B, C]`. -/
def exSel : List String := ["A", "B", "C"]

/-- A table state before any load or click. -/
def exState : TableState :=
  { validatorData := [], selectedRows := [], sortConfig := initialSortConfig }

/-- A table state that still shows the row of `B` from an earlier load. -/
def exStateB : TableState :=
  { validatorData := [ownRow "B" exRecB], selectedRows := [], sortConfig := initialSortConfig }

/-- Up to `fuel` decimal digits of a fraction `0 ≤ frac < 1`, stopping when nothing is
left. -/
def fractionDigits : Nat → ℚ → List Char
  | 0, _ => []
  | fuel + 1, frac =>
    if frac = 0 then []
    else Nat.digitChar (⌊frac * 10⌋).toNat :: fractionDigits fuel (frac * 10 - ⌊frac * 10⌋)

/-- An example number conversion: plain decimal notation, a minus sign for negative
numbers and at most 17 digits after the point.  On whole numbers of magnitude below
10^21 it is what `String` gives. -/
def plainNumberToString (q : ℚ) : String :=
  let whole : Nat := (⌊|q|⌋).toNat
  let frac := fractionDigits 17 (|q| - ⌊|q|⌋)
  (if q < 0 then "-" else "") ++ plainDigits whole ++
    (if frac.isEmpty then "" else "." ++ String.mk frac)

/-- An example host: ASCII lower-casing, the code-point order of strings and plain
decimal notation of numbers. -/
def ordinalCollation : Collation :=
  { toLowerCase := String.toLower
    localeCompare := fun a b => if a < b then -1 else if a = b then 0 else 1
    numberToString := plainNumberToString }

/-- Three rows: the base `A`, then `B` at 1/5 and `C` at 9/10. -/
def exRows : List DisplayRow :=
  [ownRow "A" exRecA, otherRow exData exRecA "B", otherRow exData exRecA "C"]

/-- A selection `[A, B, C]` with base `A` in which `A` and `C` are checked. -/
def exSelection : Selection :=
  { selectedValidators := ["A", "B", "C"], baseValidator := some "A", selectedRows := ["A", "C"] }

/-- Rows labelled `Cluster 3`, `N/A` and the number 2. -/
def exClusterRows : List DisplayRow :=
  [exClusterRow "Y" (ClusterLabel.str "Cluster 3"), exClusterRow "X" (ClusterLabel.str "N/A"),
    exClusterRow "Z" (ClusterLabel.num 2)]

/-- Vote record of `A`: YES on proposal 1, NO on proposal 2. -/
def exVotesA : VoteRecord :=
  [("voter", FieldVal.str "A"), ("cluster_label", FieldVal.num 1),
    ("cosmoshub_1", FieldVal.str "YES"), ("cosmoshub_2", FieldVal.str "NO")]

/-- Vote record of `B`: YES on proposal 1, NO_VOTE on proposal 2. -/
def exVotesB : VoteRecord :=
  [("voter", FieldVal.str "B"), ("cluster_label", FieldVal.num 2),
    ("cosmoshub_1", FieldVal.str "YES"), ("cosmoshub_2", FieldVal.str "NO_VOTE")]

/-- Vote record of `C`: NO on both proposals. -/
def exVotesC : VoteRecord :=
  [("voter", FieldVal.str "C"), ("cluster_label", FieldVal.num 2),
    ("cosmoshub_1", FieldVal.str "NO"), ("cosmoshub_2", FieldVal.str "NO")]

/-- A vote record of `A` that has a field for proposal 1 only. -/
def exShortA : VoteRecord :=
  [("voter", FieldVal.str "A"), ("cluster_label", FieldVal.num 1),
    ("cosmoshub_1", FieldVal.str "YES")]

/-- Twenty-five proposals, with ids 1 to 25. -/
def exProposals25 : List Proposal :=
  (List.range 25).map (fun i =>
    { id := toString (i + 1), title := "P" ++ toString (i + 1), type := none })

/-- Vote record of `D`: YES on the proposals 1 to 7 and no field for the others. -/
def exVotesD : VoteRecord :=
  [("voter", FieldVal.str "D"), ("cluster_label", FieldVal.num 3)] ++
    (List.range 7).map (fun i => ("cosmoshub_" ++ toString (i + 1), FieldVal.str "YES"))

/-- The proposals `P1` and `P2`, with ids 1 and 2. -/
def exProposals : List Proposal :=
  [{ id := "1", title := "P1", type := some "Text" }, { id := "2", title := "P2", type := none }]

/-- A name of 18 code units whose only space is its first character. -/
def exSpaceName : CodeUnits := toUtf16 " abcdefghijklmnopq"

/-- A vote record whose two proposal keys have no underscore before the id. -/
def exPlainKeys : VoteRecord :=
  [("voter", FieldVal.str "A"), ("cluster_label", FieldVal.num 1),
    ("cosmoshub5", FieldVal.str "YES"), ("cosmoshub3", FieldVal.str "NO")]

/-- An SVG in which nothing has been drawn. -/
def emptySvg : SunburstSvg := { size := none, elements := [] }

/-- The sunburst of validator `B`, drawn while `B` was visible. -/
def exDrawnSvg : SunburstSvg :=
  sunburstEffect (fun _ => false) "cosmoshub" "B" (some exProposals)
    (some [exVotesA, exVotesB]) 200 200 emptySvg

/-! ## Theorems: loading rows -/

/-- With a chain and a selection present and a parsed response, the load effect stores
what the `.then` callback computes. -/
theorem loadEffect_fetched (chain : String) (sel : List String) (base : Option String)
    (data : List ValidatorRecord) (st : TableState) (hchain : chain ≠ "") (hsel : sel ≠ []) :
    (loadEffect (some chain) sel base (some data) st).validatorData
      = onFetched sel base st.validatorData data := by
  cases sel with
  | nil => exact absurd rfl hsel
  | cons a tl => simp [loadEffect, truthyStr, hchain]

/-- The multi-validator branch of the `.then` callback, when the base record exists. -/
theorem onFetched_multi (sel : List String) (base : Option String) (prev : List DisplayRow)
    (data : List ValidatorRecord) (b : String) (baseRec : ValidatorRecord)
    (hsel : 2 ≤ sel.length) (hb : currentBaseValidator base sel = some b)
    (hrec : findVoter data b = some baseRec) :
    onFetched sel base prev data
      = ownRow b baseRec :: (sel.filter (fun v => decide (v ≠ b))).map (otherRow data baseRec) := by
  match sel, hsel, hb with
  | [], h, _ => simp at h
  | [_], h, _ => simp at h
  | x :: y :: tl, _, hb => simp only [onFetched, hb, hrec]

/-- The value of `x || 0` in terms of presence: the field itself, or 0 when absent. -/
theorem orZero_eq (o : Option ℚ) : orZero o = o.getD 0 := by
  cases o with
  | none => rfl
  | some q =>
    by_cases h : q = 0
    · simp [orZero, h]
    · simp [orZero, h]

/-- C1. Multi-validator branch of the load: for every fetched record list and every
selection of two or more validators whose effective base `b` (the base validator if
set, otherwise the first selected validator) has a record in the list, the row list is
a base row (validator `b`, match rate 1) followed by one row for each other selected
validator in selection order, and each such row's match rate is the field keyed by
that validator in the first record of `b`, or 0 when that record has no such field. -/
theorem loadEffect_multi_rows (chain : String) (sel : List String) (base : Option String)
    (data : List ValidatorRecord) (st : TableState) (b : String) (r : ValidatorRecord)
    (hchain : chain ≠ "") (hsel : 2 ≤ sel.length)
    (hb : (base = some b ∧ b ≠ "") ∨ ((base = none ∨ base = some "") ∧ sel.head? = some b))
    (hr : r ∈ data) (hv : r.voter = b) :
    ∃ baseRec row0 rest,
      data.find? (fun item => decide (item.voter = b)) = some baseRec ∧
      baseRec ∈ data ∧ baseRec.voter = b ∧
      (loadEffect (some chain) sel base (some data) st).validatorData = row0 :: rest ∧
      row0.validator = b ∧ row0.matchRate = 1 ∧
      rest.map (fun row => row.validator) = sel.filter (fun v => decide (v ≠ b)) ∧
      ∀ row ∈ rest, row.matchRate =
        match baseRec.pairwise.find? (fun kv => decide (kv.1 = row.validator)) with
        | some kv => kv.2
        | none => 0 := by
  have hcur : currentBaseValidator base sel = some b := by
    rcases hb with ⟨h1, h2⟩ | ⟨h1 | h1, h2⟩
    · subst h1
      simp [currentBaseValidator, truthyStr, h2]
    · subst h1
      simpa [currentBaseValidator, truthyStr] using h2
    · subst h1
      simpa [currentBaseValidator, truthyStr] using h2
  have hsome : (data.find? (fun item => decide (item.voter = b))).isSome := by
    rw [List.find?_isSome]
    exact ⟨r, hr, by simp [hv]⟩
  obtain ⟨baseRec, hfind⟩ := Option.isSome_iff_exists.mp hsome
  have hmem : baseRec ∈ data := List.mem_of_find?_eq_some hfind
  have hvoter : baseRec.voter = b := by
    have := List.find?_some hfind
    simpa using this
  have hne : sel ≠ [] := by
    intro h
    subst h
    simp at hsel
  refine ⟨baseRec, ownRow b baseRec,
    (sel.filter (fun v => decide (v ≠ b))).map (otherRow data baseRec), hfind, hmem, hvoter,
    ?_, rfl, rfl, ?_, ?_⟩
  · rw [loadEffect_fetched chain sel base data st hchain hne,
      onFetched_multi sel base st.validatorData data b baseRec hsel hcur hfind]
  · rw [List.map_map]
    exact List.map_id _
  · intro row hrow
    obtain ⟨v, _, rfl⟩ := List.mem_map.mp hrow
    show orZero ((baseRec.pairwise.find? (fun kv => decide (kv.1 = v))).map Prod.snd) = _
    rw [orZero_eq]
    show _ = match baseRec.pairwise.find? (fun kv => decide (kv.1 = v)) with
      | some kv => kv.2
      | none => 0
    cases baseRec.pairwise.find? (fun kv => decide (kv.1 = v)) <;> rfl

/-- Witness for C1: selection `[A, B, C]` with base `B`, records for `A` and `B`. -/
theorem loadEffect_multi_rows_witness :
    ("cosmoshub" ≠ "" ∧ 2 ≤ exSel.length ∧
      (((some "B" : Option String) = some "B" ∧ "B" ≠ "") ∨
        (((some "B" : Option String) = none ∨ (some "B" : Option String) = some "") ∧
          exSel.head? = some "B")) ∧
      exRecB ∈ exData ∧ exRecB.voter = "B") ∧
    ∃ baseRec row0 rest,
      exData.find? (fun item => decide (item.voter = "B")) = some baseRec ∧
      baseRec ∈ exData ∧ baseRec.voter = "B" ∧
      (loadEffect (some "cosmoshub") exSel (some "B") (some exData) exState).validatorData
        = row0 :: rest ∧
      row0.validator = "B" ∧ row0.matchRate = 1 ∧
      rest.map (fun row => row.validator) = exSel.filter (fun v => decide (v ≠ "B")) ∧
      ∀ row ∈ rest, row.matchRate =
        match baseRec.pairwise.find? (fun kv => decide (kv.1 = row.validator)) with
        | some kv => kv.2
        | none => 0 :=
  ⟨⟨by decide, by decide, Or.inl ⟨rfl, by decide⟩, by simp [exData], rfl⟩,
    loadEffect_multi_rows "cosmoshub" exSel (some "B") exData exState "B" exRecB
      (by decide) (by decide) (Or.inl ⟨rfl, by decide⟩) (by simp [exData]) rfl⟩

/-- The single-validator branch of the `.then` callback when no record is found: no
setter runs, the previous rows stay. -/
theorem onFetched_single_missing (v : String) (base : Option String) (prev : List DisplayRow)
    (data : List ValidatorRecord) (h : findVoter data v = none) :
    onFetched [v] base prev data = prev := by
  simp only [onFetched, h]

/-- C7: evaluation at the failing input. One validator `A` is selected, the fetched list is
empty (so it holds no record of `A`), and the table still holds the row of `B` from
the previous load: after the load the row list is that previous row, not empty. -/
theorem loadEffect_single_missing_keeps_rows :
    findVoter [] "A" = none ∧
    (loadEffect (some "cosmoshub") ["A"] none (some []) exStateB).validatorData
      = [ownRow "B" exRecB] ∧
    (loadEffect (some "cosmoshub") ["A"] none (some []) exStateB).validatorData ≠ [] := by
  have h : (loadEffect (some "cosmoshub") ["A"] none (some []) exStateB).validatorData
      = [ownRow "B" exRecB] := by
    rw [loadEffect_fetched "cosmoshub" ["A"] none [] exStateB (by decide) (by simp)]
    exact onFetched_single_missing "A" none _ [] rfl
  exact ⟨rfl, h, by rw [h]; simp⟩

/-- C8. Single-validator branch with a record present: for every fetched record list
that holds a record of the single selected validator `v`, the load yields exactly one
row; its validator is `v`, its match rate is 1, and its cluster and rate fields come
from the record of `v` that the lookup finds (a missing rate counts as 0). -/
theorem loadEffect_single_row (chain v : String) (base : Option String)
    (data : List ValidatorRecord) (st : TableState) (r : ValidatorRecord)
    (hchain : chain ≠ "") (hr : r ∈ data) (hv : r.voter = v) :
    ∃ info row, info ∈ data ∧ info.voter = v ∧ findVoter data v = some info ∧
      (loadEffect (some chain) [v] base (some data) st).validatorData = [row] ∧
      row.validator = v ∧ row.matchRate = 1 ∧ row.cluster = info.cluster_label ∧
      row.overallMatchRate = info.overall_match_rate.getD 0 ∧
      row.clusterMatchRate = info.cluster_match_rate.getD 0 ∧
      row.participationRate = info.participation_rate.getD 0 := by
  have hsome : (findVoter data v).isSome := by
    unfold findVoter
    rw [List.find?_isSome]
    exact ⟨r, hr, by simp [hv]⟩
  obtain ⟨info, hinfo⟩ := Option.isSome_iff_exists.mp hsome
  have hmem : info ∈ data := List.mem_of_find?_eq_some hinfo
  have hvoter : info.voter = v := by
    have := List.find?_some hinfo
    simpa using this
  refine ⟨info, ownRow v info, hmem, hvoter, hinfo, ?_, rfl, rfl, rfl, ?_, ?_, ?_⟩
  · rw [loadEffect_fetched chain [v] base data st hchain (by simp)]
    simp only [onFetched, hinfo]
  · exact orZero_eq _
  · exact orZero_eq _
  · exact orZero_eq _

/-- Witness for C8: the record list `[A, B]` and the single selected validator `B`. -/
theorem loadEffect_single_row_witness :
    ("cosmoshub" ≠ "" ∧ exRecB ∈ exData ∧ exRecB.voter = "B") ∧
    ∃ info row, info ∈ exData ∧ info.voter = "B" ∧ findVoter exData "B" = some info ∧
      (loadEffect (some "cosmoshub") ["B"] none (some exData) exState).validatorData = [row] ∧
      row.validator = "B" ∧ row.matchRate = 1 ∧ row.cluster = info.cluster_label ∧
      row.overallMatchRate = info.overall_match_rate.getD 0 ∧
      row.clusterMatchRate = info.cluster_match_rate.getD 0 ∧
      row.participationRate = info.participation_rate.getD 0 :=
  ⟨⟨by decide, by simp [exData], rfl⟩,
    loadEffect_single_row "cosmoshub" "B" none exData exState exRecB
      (by decide) (by simp [exData]) rfl⟩

/-- C2: evaluation at the failing input. Selection `[A, B, C]`, no base set, the record
of `A` rating `B` at 1/5 and `C` at 9/10, before any sort click: the load keeps the
default sort configuration `matchRate`/`desc`, and the rows are `A`, `B`, `C` in
selection order with match rates 1, 1/5, 9/10, so the rows after row 0 are not in
non-increasing order of match rate. -/
theorem loadEffect_default_order_unsorted :
    (loadEffect (some "cosmoshub") exSel none (some exData) exState).sortConfig
      = ⟨SortKey.matchRate, Direction.desc⟩ ∧
    (loadEffect (some "cosmoshub") exSel none (some exData) exState).validatorData.map
      (fun r => (r.validator, r.matchRate)) = [("A", 1), ("B", 1 / 5), ("C", 9 / 10)] ∧
    ¬ ((loadEffect (some "cosmoshub") exSel none (some exData) exState).validatorData.tail.map
      (fun r => r.matchRate)).Sorted (fun x y => x ≥ y) := by
  have h : (loadEffect (some "cosmoshub") exSel none (some exData) exState).validatorData
      = ownRow "A" exRecA ::
          (exSel.filter (fun v => decide (v ≠ "A"))).map (otherRow exData exRecA) := by
    rw [loadEffect_fetched "cosmoshub" exSel none exData exState (by decide) (by decide)]
    exact onFetched_multi exSel none _ exData "A" exRecA (by decide) rfl rfl
  have hf : exSel.filter (fun v => decide (v ≠ "A")) = ["B", "C"] := by decide
  have hB : exRecA.field "B" = some (1 / 5) := rfl
  have hC : exRecA.field "C" = some (9 / 10) := rfl
  refine ⟨rfl, ?_, ?_⟩
  · rw [h, hf]
    simp only [List.map, ownRow, otherRow, hB, hC, orZero_eq, Option.getD_some]
  · rw [h, hf]
    simp only [List.map, List.tail, otherRow, hB, hC, orZero_eq, Option.getD_some]
    intro hs
    have := List.rel_of_sorted_cons hs (9 / 10) (by simp)
    norm_num at this

/-! ## Theorems: sorting -/

theorem numOrZero_eq (q : ℚ) : numOrZero q = q := by
  unfold numOrZero
  split_ifs with h
  · exact h.symm
  · rfl

theorem keyLe_total (env : Collation) (henv : env.Consistent) (key : SortKey)
    (a b : DisplayRow) : keyLe env key a b ∨ keyLe env key b a := by
  cases key <;> simp only [keyLe] <;> first
    | exact le_total _ _
    | (rcases le_total (env.localeCompare (env.toLowerCase a.validator)
          (env.toLowerCase b.validator)) 0 with h | h
       · exact Or.inl h
       · exact Or.inr ((henv.2 _ _).mp h))

theorem keyLe_trans (env : Collation) (henv : env.Consistent) (key : SortKey)
    (a b c : DisplayRow) (hab : keyLe env key a b) (hbc : keyLe env key b c) :
    keyLe env key a c := by
  cases key <;> simp only [keyLe] at * <;> first
    | exact le_trans hab hbc
    | exact henv.1 _ _ _ hab hbc

/-- The comparator's result is not positive exactly when the first row comes no later
than the second in the order of the key and direction. -/
theorem compareRows_le_iff (env : Collation) (henv : env.Consistent) (key : SortKey)
    (direction : Direction) (a b : DisplayRow) :
    compareRows env key direction a b ≤ 0 ↔ dirLe env key direction a b := by
  cases direction <;> cases key
  all_goals simp only [compareRows, comparison, dirLe, keyLe, DisplayRow.num, numOrZero_eq,
      if_true, if_false,
      reduceCtorEq, Left.neg_nonpos_iff, sub_nonneg, sub_nonpos, Int.cast_sub, Int.cast_le,
      Int.cast_nonneg, Int.cast_nonpos]
  all_goals exact henv.2 _ _

theorem dirLe_total (env : Collation) (henv : env.Consistent) (key : SortKey)
    (direction : Direction) (a b : DisplayRow) :
    dirLe env key direction a b ∨ dirLe env key direction b a := by
  cases direction
  · exact keyLe_total env henv key a b
  · exact keyLe_total env henv key b a

theorem dirLe_trans (env : Collation) (henv : env.Consistent) (key : SortKey)
    (direction : Direction) (a b c : DisplayRow) (hab : dirLe env key direction a b)
    (hbc : dirLe env key direction b c) : dirLe env key direction a c := by
  cases direction
  · exact keyLe_trans env henv key a b c hab hbc
  · exact keyLe_trans env henv key c b a hbc hab

/-- The output of `sortValidatorData` is ordered by the comparator's relation. -/
theorem sortValidatorData_sorted_cmp (env : Collation) (henv : env.Consistent)
    (data : List DisplayRow) (key : SortKey) (direction : Direction) :
    (sortValidatorData env data key direction).Sorted
      (fun a b => compareRows env key direction a b ≤ 0) := by
  haveI : IsTotal DisplayRow (fun a b => compareRows env key direction a b ≤ 0) :=
    ⟨fun a b => by
      simp only [compareRows_le_iff env henv]
      exact dirLe_total env henv key direction a b⟩
  haveI : IsTrans DisplayRow (fun a b => compareRows env key direction a b ≤ 0) :=
    ⟨fun a b c hab hbc => by
      simp only [compareRows_le_iff env henv] at *
      exact dirLe_trans env henv key direction a b c hab hbc⟩
  exact List.sorted_insertionSort _ data

/-- The output of `sortValidatorData` is ordered by the key in the direction. -/
theorem sortValidatorData_sorted (env : Collation) (henv : env.Consistent)
    (data : List DisplayRow) (key : SortKey) (direction : Direction) :
    (sortValidatorData env data key direction).Sorted (dirLe env key direction) :=
  (sortValidatorData_sorted_cmp env henv data key direction).imp
    (fun h => (compareRows_le_iff env henv key direction _ _).mp h)

/-- The output of `sortValidatorData` is a permutation of its input. -/
theorem sortValidatorData_perm (env : Collation) (data : List DisplayRow) (key : SortKey)
    (direction : Direction) : (sortValidatorData env data key direction).Perm data :=
  List.perm_insertionSort _ data

/-- C3. Sorting pins the base row: for every non-empty row list `first :: rest` and
every sort key, when a chain and a selection are present, `handleSort` stores the key
with the new direction and a row list whose row 0 is `first` and whose remaining rows
are a permutation of `rest`, non-decreasing in the key when the new direction is
`asc` and non-increasing when it is `desc`. -/
theorem handleSort_pins_base (env : Collation) (henv : env.Consistent) (chain : String)
    (sel : List String) (cfg : SortConfig) (first : DisplayRow) (rest : List DisplayRow)
    (key : SortKey) (hchain : chain ≠ "") (hsel : sel ≠ []) :
    ∃ sorted : List DisplayRow,
      handleSort env (some chain) sel cfg (first :: rest) key
        = SortOutcome.updated ⟨key, newDirection cfg key⟩ (some first :: sorted.map some) ∧
      sorted.Perm rest ∧
      (newDirection cfg key = Direction.asc → sorted.Sorted (fun a b => keyLe env key a b)) ∧
      (newDirection cfg key = Direction.desc → sorted.Sorted (fun a b => keyLe env key b a)) := by
  refine ⟨sortValidatorData env rest key (newDirection cfg key), ?_,
    sortValidatorData_perm env rest key _, ?_, ?_⟩
  · cases sel with
    | nil => exact absurd rfl hsel
    | cons a tl => simp [handleSort, sortUpdater, truthyStr, hchain]
  · intro h
    have hs := sortValidatorData_sorted env henv rest key (newDirection cfg key)
    rw [h] at hs ⊢
    exact hs
  · intro h
    have hs := sortValidatorData_sorted env henv rest key (newDirection cfg key)
    rw [h] at hs ⊢
    exact hs

/-- C9. Sorting is idempotent: for every row list, sort key and direction,
`sortValidatorData` applied to its own output with the same key and direction returns
that output unchanged. -/
theorem sortValidatorData_idempotent (env : Collation) (henv : env.Consistent)
    (d : List DisplayRow) (k : SortKey) (dir : Direction) :
    sortValidatorData env (sortValidatorData env d k dir) k dir
      = sortValidatorData env d k dir :=
  List.Sorted.insertionSort_eq (sortValidatorData_sorted_cmp env henv d k dir)

theorem ordinalCollation_le_iff (a b : String) :
    ordinalCollation.localeCompare a b ≤ 0 ↔ a ≤ b := by
  simp only [ordinalCollation]
  split_ifs with h1 h2
  · simp [le_of_lt h1]
  · simp [h2]
  · have hlt : b < a := lt_of_le_of_ne (not_lt.mp h1) (Ne.symm h2)
    exact ⟨fun h => absurd h (by decide), fun h => absurd h (not_le.mpr hlt)⟩

theorem ordinalCollation_ge_iff (a b : String) :
    0 ≤ ordinalCollation.localeCompare a b ↔ b ≤ a := by
  simp only [ordinalCollation]
  split_ifs with h1 h2
  · exact ⟨fun h => absurd h (by decide), fun h => absurd h (not_le.mpr h1)⟩
  · simp [h2]
  · exact ⟨fun _ => not_lt.mp h1, fun _ => by decide⟩

/-- The example collation is consistent. -/
theorem ordinalCollation_consistent : ordinalCollation.Consistent := by
  refine ⟨?_, ?_⟩
  · intro a b c hab hbc
    rw [ordinalCollation_le_iff] at *
    exact le_trans hab hbc
  · intro a b
    rw [ordinalCollation_le_iff, ordinalCollation_ge_iff]

/-- Witness for C3: the rows `A`, `B`, `C` sorted by a click on the match-rate column. -/
theorem handleSort_pins_base_witness :
    (ordinalCollation.Consistent ∧ "cosmoshub" ≠ "" ∧ exSel ≠ []) ∧
    ∃ sorted : List DisplayRow,
      handleSort ordinalCollation (some "cosmoshub") exSel initialSortConfig
          (ownRow "A" exRecA :: [otherRow exData exRecA "B", otherRow exData exRecA "C"])
          SortKey.matchRate
        = SortOutcome.updated ⟨SortKey.matchRate, newDirection initialSortConfig SortKey.matchRate⟩
            (some (ownRow "A" exRecA) :: sorted.map some) ∧
      sorted.Perm [otherRow exData exRecA "B", otherRow exData exRecA "C"] ∧
      (newDirection initialSortConfig SortKey.matchRate = Direction.asc →
        sorted.Sorted (fun a b => keyLe ordinalCollation SortKey.matchRate a b)) ∧
      (newDirection initialSortConfig SortKey.matchRate = Direction.desc →
        sorted.Sorted (fun a b => keyLe ordinalCollation SortKey.matchRate b a)) :=
  ⟨⟨ordinalCollation_consistent, by decide, by decide⟩,
    handleSort_pins_base ordinalCollation ordinalCollation_consistent "cosmoshub" exSel
      initialSortConfig (ownRow "A" exRecA)
      [otherRow exData exRecA "B", otherRow exData exRecA "C"] SortKey.matchRate
      (by decide) (by decide)⟩

/-- The rows `A` (base), `B` at 1/5, `C` at 9/10 after a click on the match-rate column
while the table is sorted ascending by match rate: the new direction is `desc`, row 0
stays and `C` comes before `B`. -/
theorem handleSort_matchRate_desc_example :
    (handleSort ordinalCollation (some "cosmoshub") exSel ⟨SortKey.matchRate, Direction.asc⟩
        exRows SortKey.matchRate)
      = SortOutcome.updated ⟨SortKey.matchRate, Direction.desc⟩
          [some (ownRow "A" exRecA), some (otherRow exData exRecA "C"),
            some (otherRow exData exRecA "B")] := by
  have hB : (otherRow exData exRecA "B").matchRate = 1 / 5 := by
    show orZero (some (1 / 5)) = 1 / 5
    rw [orZero_eq]
    rfl
  have hC : (otherRow exData exRecA "C").matchRate = 9 / 10 := by
    show orZero (some (9 / 10)) = 9 / 10
    rw [orZero_eq]
    rfl
  have hcmp : compareRows ordinalCollation SortKey.matchRate Direction.desc
      (otherRow exData exRecA "B") (otherRow exData exRecA "C") ≤ 0 ↔ False := by
    simp only [compareRows, comparison, DisplayRow.num, numOrZero_eq, hB, hC, reduceCtorEq,
      if_false]
    norm_num
  simp [handleSort, sortUpdater, truthyStr, exSel, exRows, newDirection, sortValidatorData,
    List.insertionSort, List.orderedInsert, hcmp]

/-- Witness for C9: the rows `A`, `B`, `C` sorted twice by validator name, ascending. -/
theorem sortValidatorData_idempotent_witness :
    ordinalCollation.Consistent ∧
    sortValidatorData ordinalCollation
        (sortValidatorData ordinalCollation exRows SortKey.validator Direction.asc)
        SortKey.validator Direction.asc
      = sortValidatorData ordinalCollation exRows SortKey.validator Direction.asc :=
  ⟨ordinalCollation_consistent,
    sortValidatorData_idempotent ordinalCollation ordinalCollation_consistent exRows
      SortKey.validator Direction.asc⟩

/-! ## Theorems: removing rows -/

/-- C4. Removal postcondition: in every state whose base validator is null or a member
of the selection, `handleRemoveSelected` leaves the selection equal to the old one
with every checked validator excluded (order kept), empties the checked-row set, sets
the base to the first remaining validator (null if none remain) when the old base was
checked and leaves it unchanged otherwise; when every selected validator is checked,
the selection and the checked-row set end empty and the base null. -/
theorem handleRemoveSelected_post (s : Selection)
    (hinv : s.baseValidator = none ∨
      ∃ b, s.baseValidator = some b ∧ b ∈ s.selectedValidators) :
    (handleRemoveSelected s).selectedValidators
      = s.selectedValidators.filter (fun v => decide (v ∉ s.selectedRows)) ∧
    (handleRemoveSelected s).selectedRows = [] ∧
    (∀ b, s.baseValidator = some b → b ∈ s.selectedRows →
      (handleRemoveSelected s).baseValidator
        = (s.selectedValidators.filter (fun v => decide (v ∉ s.selectedRows))).head?) ∧
    ((s.baseValidator = none ∨ ∃ b, s.baseValidator = some b ∧ b ∉ s.selectedRows) →
      (handleRemoveSelected s).baseValidator = s.baseValidator) ∧
    ((∀ v ∈ s.selectedValidators, v ∈ s.selectedRows) →
      (handleRemoveSelected s).selectedValidators = [] ∧
      (handleRemoveSelected s).selectedRows = [] ∧
      (handleRemoveSelected s).baseValidator = none) := by
  have hfilter : s.selectedValidators.filter (fun v => !s.selectedRows.contains v)
      = s.selectedValidators.filter (fun v => decide (v ∉ s.selectedRows)) := by
    congr 1
    funext v
    simp
  have hchecked : ∀ b, s.baseValidator = some b → b ∈ s.selectedRows →
      (handleRemoveSelected s).baseValidator
        = (s.selectedValidators.filter (fun v => decide (v ∉ s.selectedRows))).head? := by
    intro b hb hmem
    simp only [handleRemoveSelected, hb, hfilter]
    simp [hmem]
  have hall : (∀ v ∈ s.selectedValidators, v ∈ s.selectedRows) →
      s.selectedValidators.filter (fun v => decide (v ∉ s.selectedRows)) = [] := by
    intro h
    rw [List.filter_eq_nil_iff]
    intro v hv
    simp [h v hv]
  refine ⟨?_, rfl, hchecked, ?_, ?_⟩
  · simp only [handleRemoveSelected, hfilter]
  · intro h
    rcases h with h | ⟨b, hb, hmem⟩
    · simp only [handleRemoveSelected, h]
      simp
    · simp only [handleRemoveSelected, hb]
      simp [hmem]
  · intro h
    refine ⟨?_, rfl, ?_⟩
    · simp only [handleRemoveSelected, hfilter]
      exact hall h
    · rcases hinv with hnone | ⟨b, hb, hmem⟩
      · simp only [handleRemoveSelected, hnone]
        simp
      · rw [hchecked b hb (h b hmem), hall h]
        rfl

/-- Witness for C4: selection `[A, B, C]`, base `A`, with `A` and `C` checked. -/
theorem handleRemoveSelected_post_witness :
    (exSelection.baseValidator = none ∨
      ∃ b, exSelection.baseValidator = some b ∧ b ∈ exSelection.selectedValidators) ∧
    ((handleRemoveSelected exSelection).selectedValidators
      = exSelection.selectedValidators.filter (fun v => decide (v ∉ exSelection.selectedRows)) ∧
    (handleRemoveSelected exSelection).selectedRows = [] ∧
    (∀ b, exSelection.baseValidator = some b → b ∈ exSelection.selectedRows →
      (handleRemoveSelected exSelection).baseValidator
        = (exSelection.selectedValidators.filter
            (fun v => decide (v ∉ exSelection.selectedRows))).head?) ∧
    ((exSelection.baseValidator = none ∨
        ∃ b, exSelection.baseValidator = some b ∧ b ∉ exSelection.selectedRows) →
      (handleRemoveSelected exSelection).baseValidator = exSelection.baseValidator) ∧
    ((∀ v ∈ exSelection.selectedValidators, v ∈ exSelection.selectedRows) →
      (handleRemoveSelected exSelection).selectedValidators = [] ∧
      (handleRemoveSelected exSelection).selectedRows = [] ∧
      (handleRemoveSelected exSelection).baseValidator = none)) :=
  ⟨Or.inr ⟨"A", rfl, by decide⟩,
    handleRemoveSelected_post exSelection (Or.inr ⟨"A", rfl, by decide⟩)⟩

/-! ## Theorems: the cluster sort key -/

theorem firstDigitRun_eq_none_iff (cs : List Char) :
    firstDigitRun cs = none ↔ ∀ c ∈ cs, c.isDigit = false := by
  unfold firstDigitRun
  constructor
  · intro h
    have htake : (cs.dropWhile (fun c => !c.isDigit)).takeWhile Char.isDigit = [] := by
      cases hrun : (cs.dropWhile (fun c => !c.isDigit)).takeWhile Char.isDigit with
      | nil => rfl
      | cons d ds => rw [hrun] at h; simp at h
    have hdrop : cs.dropWhile (fun c => !c.isDigit) = [] := by
      cases hd : cs.dropWhile (fun c => !c.isDigit) with
      | nil => rfl
      | cons x xs =>
        have hx := List.head?_dropWhile_not (fun c => !c.isDigit) cs
        rw [hd] at hx htake
        simp only [List.head?_cons, Bool.not_eq_false'] at hx
        simp [List.takeWhile_cons, hx] at htake
    intro c hc
    have := (List.dropWhile_eq_nil_iff).mp hdrop c hc
    simpa using this
  · intro h
    have hdrop : cs.dropWhile (fun c => !c.isDigit) = [] := by
      rw [List.dropWhile_eq_nil_iff]
      intro c hc
      simp [h c hc]
    rw [hdrop]
    rfl

theorem firstDigitRun_decomp (cs run : List Char) (h : firstDigitRun cs = some run) :
    ∃ pre post, cs = pre ++ run ++ post ∧ (∀ c ∈ pre, c.isDigit = false) ∧ run ≠ [] ∧
      (∀ c ∈ run, c.isDigit = true) ∧ (∀ c, post.head? = some c → c.isDigit = false) := by
  unfold firstDigitRun at h
  have hrun : (cs.dropWhile (fun c => !c.isDigit)).takeWhile Char.isDigit = run ∧ run ≠ [] := by
    cases hr : (cs.dropWhile (fun c => !c.isDigit)).takeWhile Char.isDigit with
    | nil => rw [hr] at h; simp at h
    | cons d ds =>
      rw [hr] at h
      simp only [Option.some.injEq] at h
      exact ⟨h, by rw [← h]; simp⟩
  refine ⟨cs.takeWhile (fun c => !c.isDigit),
    (cs.dropWhile (fun c => !c.isDigit)).dropWhile Char.isDigit, ?_, ?_, hrun.2, ?_, ?_⟩
  · rw [← hrun.1, List.append_assoc, List.takeWhile_append_dropWhile,
      List.takeWhile_append_dropWhile]
  · intro c hc
    simpa using List.mem_takeWhile_imp hc
  · intro c hc
    rw [← hrun.1] at hc
    exact List.mem_takeWhile_imp hc
  · intro c hc
    have := List.head?_dropWhile_not Char.isDigit (cs.dropWhile (fun c => !c.isDigit))
    rw [hc] at this
    exact this

theorem parseDigits_append (ds : List Char) (c : Char) :
    parseDigits (ds ++ [c]) = 10 * parseDigits ds + (c.toNat - 48) := by
  simp [parseDigits, List.foldl_append]

/-- The value `parseInt` gives to a run of digits is its value in base 10. -/
theorem parseDigits_eq_ofDigits (ds : List Char) :
    parseDigits ds = Nat.ofDigits 10 (ds.reverse.map (fun c => c.toNat - 48)) := by
  induction ds using List.reverseRecOn with
  | nil => rfl
  | append_singleton ds c ih =>
    rw [parseDigits_append, ih]
    simp [Nat.ofDigits_cons]
    ring

theorem digitChar_spec (d : Nat) (h : d < 10) :
    (Nat.digitChar d).isDigit = true ∧ (Nat.digitChar d).toNat - 48 = d := by
  interval_cases d <;> exact ⟨by decide, by decide⟩

theorem firstDigitRun_all_digits (l : List Char) (hne : l ≠ [])
    (hall : ∀ c ∈ l, c.isDigit = true) : firstDigitRun l = some l := by
  cases l with
  | nil => exact absurd rfl hne
  | cons x xs =>
    have hx : x.isDigit = true := hall x (List.mem_cons_self _ _)
    have hdrop : (x :: xs).dropWhile (fun c => !c.isDigit) = x :: xs := by
      rw [List.dropWhile_cons_of_neg]
      simp [hx]
    have htake : (x :: xs).takeWhile Char.isDigit = x :: xs :=
      List.takeWhile_eq_self_iff.mpr hall
    unfold firstDigitRun
    rw [hdrop, htake]

/-- A counting number other than 0 whose text is its plain decimal digits sorts by its
own value. -/
theorem clusterNumber_num (env : Collation) (n : Nat) (hn : n ≠ 0)
    (hhost : env.numberToString (n : ℚ) = plainDigits n) :
    clusterNumber env (some (ClusterLabel.num (n : ℚ))) = n := by
  have hdig : ∀ c ∈ (Nat.digits 10 n).reverse.map Nat.digitChar, c.isDigit = true := by
    intro c hc
    obtain ⟨d, hd, rfl⟩ := List.mem_map.mp hc
    exact (digitChar_spec d (Nat.digits_lt_base (by decide) (List.mem_reverse.mp hd))).1
  have hne : (Nat.digits 10 n).reverse.map Nat.digitChar ≠ [] := by
    simp [Nat.digits_ne_nil_iff_ne_zero, hn]
  have hval : (Nat.digits 10 n).map (fun d => (Nat.digitChar d).toNat - 48)
      = Nat.digits 10 n := by
    conv_rhs => rw [← List.map_id (Nat.digits 10 n)]
    apply List.map_congr_left
    intro d hd
    exact (digitChar_spec d (Nat.digits_lt_base (by decide) hd)).2
  have htext : (clusterText env (some (ClusterLabel.num (n : ℚ)))).data
      = (Nat.digits 10 n).reverse.map Nat.digitChar := by
    simp [clusterText, ClusterLabel.falsy, ClusterLabel.toText, hhost, plainDigits, hn]
  unfold clusterNumber
  rw [htext, firstDigitRun_all_digits _ hne hdig]
  simp only [parseDigits_eq_ofDigits, List.map_reverse, List.reverse_reverse, List.map_map]
  have : (fun c => c.toNat - 48) ∘ Nat.digitChar = fun d => (Nat.digitChar d).toNat - 48 := rfl
  rw [this, hval, Nat.ofDigits_digits]

/-- For a label other than the number 0, the text the comparator scans is the label's
own text. -/
theorem clusterText_some (env : Collation) (label : ClusterLabel)
    (h : label ≠ ClusterLabel.num 0) : clusterText env (some label) = label.toText env := by
  cases label with
  | str s =>
    by_cases hs : s = ""
    · simp [clusterText, ClusterLabel.falsy, ClusterLabel.toText, hs]
    · simp [clusterText, ClusterLabel.falsy, ClusterLabel.toText, hs]
  | num q =>
    have hq : q ≠ 0 := fun h0 => h (by rw [h0])
    simp [clusterText, ClusterLabel.falsy, ClusterLabel.toText, hq]

/-- The cluster number is -1 when the scanned text has no digit, and otherwise the
value of the first maximal run of digits. -/
theorem clusterNumber_text (env : Collation) (cluster : Option ClusterLabel) :
    ((∀ c ∈ (clusterText env cluster).data, c.isDigit = false) →
      clusterNumber env cluster = -1) ∧
    ((∃ c ∈ (clusterText env cluster).data, c.isDigit = true) →
      ∃ pre run post, (clusterText env cluster).data = pre ++ run ++ post ∧
        (∀ c ∈ pre, c.isDigit = false) ∧ run ≠ [] ∧ (∀ c ∈ run, c.isDigit = true) ∧
        (∀ c, post.head? = some c → c.isDigit = false) ∧
        clusterNumber env cluster
          = (Nat.ofDigits 10 (run.reverse.map (fun c => c.toNat - 48)) : Nat)) := by
  constructor
  · intro h
    unfold clusterNumber
    rw [(firstDigitRun_eq_none_iff _).mpr h]
  · intro h
    cases hrun : firstDigitRun (clusterText env cluster).data with
    | none =>
      obtain ⟨c, hc, hd⟩ := h
      have := (firstDigitRun_eq_none_iff _).mp hrun c hc
      rw [hd] at this
      exact absurd this (by decide)
    | some run =>
      obtain ⟨pre, post, h1, h2, h3, h4, h5⟩ := firstDigitRun_decomp _ run hrun
      refine ⟨pre, run, post, h1, h2, h3, h4, h5, ?_⟩
      unfold clusterNumber
      rw [hrun]
      show ((parseDigits run : Nat) : Int) = _
      rw [parseDigits_eq_ofDigits]

/-- Ascending by cluster, the comparator's relation is the order of cluster numbers. -/
theorem compareRows_cluster_asc (env : Collation) (a b : DisplayRow) :
    compareRows env SortKey.cluster Direction.asc a b ≤ 0
      ↔ clusterNumber env a.cluster ≤ clusterNumber env b.cluster := by
  simp [compareRows, comparison]

/-- Ascending by cluster, the sorted rows are in non-decreasing order of cluster number. -/
theorem sortValidatorData_cluster_asc_sorted (env : Collation) (data : List DisplayRow) :
    (sortValidatorData env data SortKey.cluster Direction.asc).Sorted
      (fun a b => clusterNumber env a.cluster ≤ clusterNumber env b.cluster) := by
  haveI : IsTotal DisplayRow
      (fun a b => compareRows env SortKey.cluster Direction.asc a b ≤ 0) :=
    ⟨fun a b => by
      simp only [compareRows_cluster_asc]
      exact le_total _ _⟩
  haveI : IsTrans DisplayRow
      (fun a b => compareRows env SortKey.cluster Direction.asc a b ≤ 0) :=
    ⟨fun a b c hab hbc => by
      simp only [compareRows_cluster_asc] at *
      exact le_trans hab hbc⟩
  exact (List.sorted_insertionSort _ data).imp
    (fun h => (compareRows_cluster_asc env _ _).mp h)

theorem clusterNumber_nonneg_of_numeric (env : Collation) (label : ClusterLabel)
    (h0 : label ≠ ClusterLabel.num 0)
    (hd : ∃ c ∈ (label.toText env).data, c.isDigit = true) :
    0 ≤ clusterNumber env (some label) := by
  rw [← clusterText_some env label h0] at hd
  obtain ⟨_, run, _, _, _, _, _, _, hval⟩ := (clusterNumber_text env (some label)).2 hd
  rw [hval]
  exact Int.natCast_nonneg _

theorem clusterNumber_of_not_numeric (env : Collation) (cluster : Option ClusterLabel)
    (h0 : cluster ≠ some (ClusterLabel.num 0)) (hn : ¬ LabelNumeric env cluster) :
    clusterNumber env cluster = -1 := by
  apply (clusterNumber_text env cluster).1
  cases cluster with
  | none => intro c hc; simp [clusterText] at hc
  | some label =>
    have hl : label ≠ ClusterLabel.num 0 := fun h => h0 (by rw [h])
    rw [clusterText_some env label hl]
    intro c hc
    by_contra hne
    exact hn ⟨label, rfl, c, hc, by simpa using hne⟩

/-- C10, as amended. For every row list without the number 0 as a label: sorting by
`cluster` compares two rows by the difference of their cluster numbers; the text of a
label is the string itself or, for a number, what the host's `String` prints; a
label's cluster number is -1 exactly when that text has no digit, and otherwise it is
the base-10 value of the first maximal run of digits in the text (so a counting number
printed as its plain decimal digits sorts as itself); and in ascending order no row
whose label has a digit comes before a row whose label has none. -/
theorem cluster_sort_key (env : Collation) (rows : List DisplayRow)
    (hz : ∀ r ∈ rows, r.cluster ≠ some (ClusterLabel.num 0)) :
    (∀ a b : DisplayRow, comparison env SortKey.cluster a b
      = ((clusterNumber env a.cluster - clusterNumber env b.cluster : Int) : ℚ)) ∧
    (∀ r ∈ rows, ∀ label, r.cluster = some label →
      (∀ s, label = ClusterLabel.str s → label.toText env = s) ∧
      (∀ q, label = ClusterLabel.num q → label.toText env = env.numberToString q) ∧
      (clusterNumber env r.cluster = -1 ↔ ∀ c ∈ (label.toText env).data, c.isDigit = false) ∧
      ((∃ c ∈ (label.toText env).data, c.isDigit = true) →
        ∃ pre run post, (label.toText env).data = pre ++ run ++ post ∧
          (∀ c ∈ pre, c.isDigit = false) ∧ run ≠ [] ∧ (∀ c ∈ run, c.isDigit = true) ∧
          (∀ c, post.head? = some c → c.isDigit = false) ∧
          clusterNumber env r.cluster
            = (Nat.ofDigits 10 (run.reverse.map (fun c => c.toNat - 48)) : Nat)) ∧
      (∀ n : Nat, label = ClusterLabel.num (n : ℚ) →
        env.numberToString (n : ℚ) = plainDigits n → clusterNumber env r.cluster = n)) ∧
    (sortValidatorData env rows SortKey.cluster Direction.asc).Pairwise
      (fun a b => ¬ (LabelNumeric env a.cluster ∧ ¬ LabelNumeric env b.cluster)) := by
  refine ⟨fun a b => rfl, ?_, ?_⟩
  · intro r hr label hlabel
    have hl : label ≠ ClusterLabel.num 0 := fun h => hz r hr (by rw [hlabel, h])
    have htext := clusterText_some env label hl
    rw [hlabel]
    refine ⟨?_, ?_, ⟨?_, ?_⟩, ?_, ?_⟩
    · intro s hs
      subst hs
      rfl
    · intro q hq
      subst hq
      rfl
    · intro hm c hc
      by_contra hne
      have hpos := clusterNumber_nonneg_of_numeric env label hl ⟨c, hc, by simpa using hne⟩
      rw [hm] at hpos
      exact absurd hpos (by decide)
    · intro h
      apply (clusterNumber_text env (some label)).1
      rw [htext]
      exact h
    · intro h
      have := (clusterNumber_text env (some label)).2 (by rw [htext]; exact h)
      rw [htext] at this
      exact this
    · intro n hn hhost
      subst hn
      have hn0 : n ≠ 0 := by
        intro h0
        apply hl
        rw [h0]
        simp
      exact clusterNumber_num env n hn0 hhost
  · have hsorted := sortValidatorData_cluster_asc_sorted env rows
    have hmem : ∀ a ∈ sortValidatorData env rows SortKey.cluster Direction.asc, a ∈ rows :=
      fun a ha => (sortValidatorData_perm env rows _ _).mem_iff.mp ha
    refine (List.Pairwise.and_mem.mp hsorted).imp ?_
    rintro a b ⟨ha, hb, hle⟩ ⟨hna, hnb⟩
    obtain ⟨la, hla, hda⟩ := hna
    have hla0 : la ≠ ClusterLabel.num 0 := fun h => hz a (hmem a ha) (by rw [hla, h])
    have h1 := clusterNumber_nonneg_of_numeric env la hla0 hda
    have h2 := clusterNumber_of_not_numeric env b.cluster (hz b (hmem b hb)) hnb
    rw [hla] at hle
    rw [h2] at hle
    omega

/-- Witness for C10 as amended: rows labelled `Cluster 3`, `N/A` and the number 2. -/
theorem cluster_sort_key_witness :
    (∀ r ∈ exClusterRows, r.cluster ≠ some (ClusterLabel.num 0)) ∧
    ((∀ a b : DisplayRow, comparison ordinalCollation SortKey.cluster a b
      = ((clusterNumber ordinalCollation a.cluster
          - clusterNumber ordinalCollation b.cluster : Int) : ℚ)) ∧
    (∀ r ∈ exClusterRows, ∀ label, r.cluster = some label →
      (∀ s, label = ClusterLabel.str s → label.toText ordinalCollation = s) ∧
      (∀ q, label = ClusterLabel.num q →
        label.toText ordinalCollation = ordinalCollation.numberToString q) ∧
      (clusterNumber ordinalCollation r.cluster = -1
        ↔ ∀ c ∈ (label.toText ordinalCollation).data, c.isDigit = false) ∧
      ((∃ c ∈ (label.toText ordinalCollation).data, c.isDigit = true) →
        ∃ pre run post, (label.toText ordinalCollation).data = pre ++ run ++ post ∧
          (∀ c ∈ pre, c.isDigit = false) ∧ run ≠ [] ∧ (∀ c ∈ run, c.isDigit = true) ∧
          (∀ c, post.head? = some c → c.isDigit = false) ∧
          clusterNumber ordinalCollation r.cluster
            = (Nat.ofDigits 10 (run.reverse.map (fun c => c.toNat - 48)) : Nat)) ∧
      (∀ n : Nat, label = ClusterLabel.num (n : ℚ) →
        ordinalCollation.numberToString (n : ℚ) = plainDigits n →
        clusterNumber ordinalCollation r.cluster = n)) ∧
    (sortValidatorData ordinalCollation exClusterRows SortKey.cluster Direction.asc).Pairwise
      (fun a b => ¬ (LabelNumeric ordinalCollation a.cluster ∧
        ¬ LabelNumeric ordinalCollation b.cluster))) :=
  ⟨by simp [exClusterRows, exClusterRow],
    cluster_sort_key ordinalCollation exClusterRows (by simp [exClusterRows, exClusterRow])⟩

/-- With the example host the number label 12 sorts as 12, the label -1 as 1 (its text
is `-1`) and the label 5/2 as 2 (its text is `2.5`). -/
theorem clusterNumber_number_examples :
    ordinalCollation.numberToString 12 = "12" ∧
    clusterNumber ordinalCollation (some (ClusterLabel.num 12)) = 12 ∧
    ordinalCollation.numberToString (-1) = "-1" ∧
    clusterNumber ordinalCollation (some (ClusterLabel.num (-1))) = 1 ∧
    ordinalCollation.numberToString (5 / 2) = "2.5" ∧
    clusterNumber ordinalCollation (some (ClusterLabel.num (5 / 2))) = 2 := by
  decide!

/-- C10: counterexample. The labels `1-9` and `2-1` end in the numbers 9 and 1, but the
comparator uses 1 and 2, the first runs of digits, so ascending by cluster the row
labelled `1-9` comes before the row labelled `2-1`; and the number 0, a numeric label,
gets -1, so ascending it stays ahead of a row labelled `N/A`. -/
theorem cluster_sort_key_counterexample :
    numericSuffix ((ClusterLabel.str "1-9").toText ordinalCollation).data = some 9 ∧
    clusterNumber ordinalCollation (some (ClusterLabel.str "1-9")) = 1 ∧
    numericSuffix ((ClusterLabel.str "2-1").toText ordinalCollation).data = some 1 ∧
    clusterNumber ordinalCollation (some (ClusterLabel.str "2-1")) = 2 ∧
    sortValidatorData ordinalCollation
        [exClusterRow "Y" (ClusterLabel.str "2-1"), exClusterRow "X" (ClusterLabel.str "1-9")]
        SortKey.cluster Direction.asc
      = [exClusterRow "X" (ClusterLabel.str "1-9"), exClusterRow "Y" (ClusterLabel.str "2-1")] ∧
    clusterNumber ordinalCollation (some (ClusterLabel.num 0)) = -1 ∧
    sortValidatorData ordinalCollation
        [exClusterRow "Z" (ClusterLabel.num 0), exClusterRow "X" (ClusterLabel.str "N/A")]
        SortKey.cluster Direction.asc
      = [exClusterRow "Z" (ClusterLabel.num 0), exClusterRow "X" (ClusterLabel.str "N/A")] := by
  have h1 : clusterNumber ordinalCollation (some (ClusterLabel.str "1-9")) = 1 := by decide
  have h2 : clusterNumber ordinalCollation (some (ClusterLabel.str "2-1")) = 2 := by decide
  have h0 : clusterNumber ordinalCollation (some (ClusterLabel.num 0)) = -1 := by decide
  have hna : clusterNumber ordinalCollation (some (ClusterLabel.str "N/A")) = -1 := by decide
  refine ⟨by decide, h1, by decide, h2, ?_, h0, ?_⟩
  · simp [sortValidatorData, List.insertionSort, List.orderedInsert, compareRows_cluster_asc,
      exClusterRow, h1, h2]
  · simp [sortValidatorData, List.insertionSort, List.orderedInsert, compareRows_cluster_asc,
      exClusterRow, h0, hna]

/-! ## Theorems: the parallel view -/

/-- The keys of `chainKeys` are the record's keys that pass the filter. -/
theorem mem_chainKeys (r : VoteRecord) (key : String) :
    key ∈ chainKeys r ↔ key ∈ r.map Prod.fst ∧ isChainKey key = true := by
  unfold chainKeys
  rw [(List.perm_insertionSort _ _).mem_iff, List.mem_filter]

/-- The set of votes on an axis has more than one member exactly when two of the
records differ on it. -/
theorem isDivergent_iff (selected : List VoteRecord) (chain : String) :
    isDivergent selected chain = true
      ↔ ∃ r1 ∈ selected, ∃ r2 ∈ selected, r1.get chain ≠ r2.get chain := by
  unfold isDivergent
  rw [decide_eq_true_iff, gt_iff_lt, Finset.one_lt_card]
  constructor
  · rintro ⟨a, ha, b, hb, hab⟩
    rw [List.mem_toFinset, List.mem_map] at ha hb
    obtain ⟨r1, h1, rfl⟩ := ha
    obtain ⟨r2, h2, rfl⟩ := hb
    exact ⟨r1, h1, r2, h2, hab⟩
  · rintro ⟨r1, h1, r2, h2, hne⟩
    exact ⟨_, List.mem_toFinset.mpr (List.mem_map_of_mem _ h1), _,
      List.mem_toFinset.mpr (List.mem_map_of_mem _ h2), hne⟩

theorem VoteRecord.get_eq_lookup (r : VoteRecord) (key : String) :
    r.get key = List.lookup key r := by
  induction r with
  | nil => rfl
  | cons kv rest ih =>
    obtain ⟨k, v⟩ := kv
    unfold VoteRecord.get at ih ⊢
    by_cases hk : k = key
    · subst hk
      simp [List.find?_cons, List.lookup_cons]
    · have hk2 : (key == k) = false := by
        simpa using fun h : key = k => hk h.symm
      simp only [List.find?_cons, List.lookup_cons, hk, decide_False, hk2]
      exact ih

/-- The list `selectedData` holds, in the order of `data`, the records of the visible
validators. -/
theorem selectedData_eq_filter (data : List VoteRecord) (sel hidden : List String) :
    selectedData data sel hidden = data.filter (visibleRecord sel hidden) := by
  unfold selectedData
  apply List.filter_congr
  intro r _
  unfold includesVoter visibleRecord
  rw [VoteRecord.get_eq_lookup]
  cases hv : List.lookup "voter" r with
  | none => rfl
  | some val =>
    cases val with
    | str v => simp [List.contains_iff_exists_mem_beq]
    | num q => rfl

theorem mem_divergentChains (first : VoteRecord) (others : List VoteRecord) (chain : String) :
    chain ∈ divergentChains (first :: others)
      ↔ chain ∈ chainKeys first ∧
        ∃ r1 ∈ first :: others, ∃ r2 ∈ first :: others,
          List.lookup chain r1 ≠ List.lookup chain r2 := by
  simp only [divergentChains, List.head?_cons, List.mem_filter, isDivergent_iff,
    VoteRecord.get_eq_lookup]

/-- With a visible record, the guard of the draw effect passes and the drawing is
decided by the divergent axes. -/
theorem renderParallel_visible (data : List VoteRecord) (sel hidden : List String)
    (prev : SvgContent) (first : VoteRecord) (others : List VoteRecord)
    (hvis : data.filter (visibleRecord sel hidden) = first :: others) :
    renderParallel (some data) sel hidden prev
      = if divergentChains (first :: others) = [] then SvgContent.message allMatchText
        else SvgContent.chart ("Cluster" :: divergentChains (first :: others) ++ ["End"]) := by
  have hmem : first ∈ data.filter (visibleRecord sel hidden) := by
    rw [hvis]; exact List.mem_cons_self _ _
  have hdata : data ≠ [] := by
    intro h
    rw [h] at hmem
    simp at hmem
  have hsel : sel ≠ [] := by
    intro h
    rw [h] at hmem
    have hv := (List.mem_filter.mp hmem).2
    unfold visibleRecord at hv
    split at hv <;> simp at hv
  have hd : (data.length == 0) = false := by simpa using hdata
  have hs : (sel.length == 0) = false := by simpa using hsel
  simp only [renderParallel, hd, hs, selectedData_eq_filter, hvis, Bool.or_false,
    Bool.false_eq_true, if_false, List.length_cons, Nat.add_one_ne_zero, beq_iff_eq,
    List.length_eq_zero]

/-- Without a visible record the draw effect shows the "no validators" placeholder,
and with an empty record list or selection it leaves the drawing as it was. -/
theorem renderParallel_no_visible (data : List VoteRecord) (sel hidden : List String)
    (prev : SvgContent) :
    ((data = [] ∨ sel = []) → renderParallel (some data) sel hidden prev = prev) ∧
    (data ≠ [] → sel ≠ [] → data.filter (visibleRecord sel hidden) = [] →
      renderParallel (some data) sel hidden prev = SvgContent.message noValidatorText) := by
  constructor
  · intro h
    rcases h with h | h <;> subst h <;> simp [renderParallel]
  · intro hdata hsel hvis
    have hd : (data.length == 0) = false := by simpa using hdata
    have hs : (sel.length == 0) = false := by simpa using hsel
    simp [renderParallel, hd, hs, selectedData_eq_filter, hvis]

/-- C5, as amended. Parallel view axis selection, for every record list, selection and
hidden set. When at least one selected, non-hidden validator has a record
(`first :: others` are those records, in the order of the list), the proposal axes are
the axis keys of `first`; if the visible records agree on every one of them, no axis is
drawn and the "all match" placeholder is shown; otherwise a chart is drawn whose axes
between `Cluster` and `End` are, in the order of `chainKeys`, exactly the proposal axes
on which two visible records differ. When no selected, non-hidden validator has a
record, the "no validators" placeholder is shown, and with an empty record list or
selection the drawing is left as it was. -/
theorem parallel_axis_selection (data : List VoteRecord) (sel hidden : List String)
    (prev : SvgContent) :
    ((data = [] ∨ sel = []) → renderParallel (some data) sel hidden prev = prev) ∧
    (data ≠ [] → sel ≠ [] → data.filter (visibleRecord sel hidden) = [] →
      renderParallel (some data) sel hidden prev = SvgContent.message noValidatorText) ∧
    (∀ first others, data.filter (visibleRecord sel hidden) = first :: others →
      (∀ key, key ∈ chainKeys first ↔ key ∈ first.map Prod.fst ∧ isChainKey key = true) ∧
      ((∀ chain ∈ chainKeys first, ∀ r1 ∈ first :: others, ∀ r2 ∈ first :: others,
          List.lookup chain r1 = List.lookup chain r2) →
        renderParallel (some data) sel hidden prev = SvgContent.message allMatchText) ∧
      ((∃ chain ∈ chainKeys first, ∃ r1 ∈ first :: others, ∃ r2 ∈ first :: others,
          List.lookup chain r1 ≠ List.lookup chain r2) →
        ∃ axes, renderParallel (some data) sel hidden prev
            = SvgContent.chart ("Cluster" :: axes ++ ["End"]) ∧
          axes ≠ [] ∧ axes.Sublist (chainKeys first) ∧
          ∀ chain, chain ∈ axes ↔ chain ∈ chainKeys first ∧
            ∃ r1 ∈ first :: others, ∃ r2 ∈ first :: others,
              List.lookup chain r1 ≠ List.lookup chain r2)) := by
  refine ⟨(renderParallel_no_visible data sel hidden prev).1,
    (renderParallel_no_visible data sel hidden prev).2, ?_⟩
  intro first others hvis
  have hrender := renderParallel_visible data sel hidden prev first others hvis
  refine ⟨mem_chainKeys first, ?_, ?_⟩
  · intro hagree
    have hnil : divergentChains (first :: others) = [] := by
      rw [List.eq_nil_iff_forall_not_mem]
      intro chain hc
      obtain ⟨hk, r1, h1, r2, h2, hne⟩ := (mem_divergentChains first others chain).mp hc
      exact hne (hagree chain hk r1 h1 r2 h2)
    rw [hrender, if_pos hnil]
  · rintro ⟨chain, hk, hdiff⟩
    have hmem : chain ∈ divergentChains (first :: others) :=
      (mem_divergentChains first others chain).mpr ⟨hk, hdiff⟩
    have hne : divergentChains (first :: others) ≠ [] := List.ne_nil_of_mem hmem
    refine ⟨divergentChains (first :: others), ?_, hne, ?_, mem_divergentChains first others⟩
    · rw [hrender, if_neg hne]
    · simp only [divergentChains, List.head?_cons]
      exact List.filter_sublist _

/-- Witness for C5 as amended: records of `A`, `B` and `C`, all selected, `C` hidden.
The visible records are those of `A` and `B`, which differ on proposal 2 only, so the
chart has the one axis `cosmoshub_2` (the hidden `C` differs from them on proposal 1). -/
theorem parallel_axis_selection_witness :
    [exVotesA, exVotesB, exVotesC].filter (visibleRecord ["A", "B", "C"] ["C"])
      = exVotesA :: [exVotesB] ∧
    renderParallel (some [exVotesA, exVotesB, exVotesC]) ["A", "B", "C"] ["C"] SvgContent.blank
      = SvgContent.chart ["Cluster", "cosmoshub_2", "End"] ∧
    ∃ axes, renderParallel (some [exVotesA, exVotesB, exVotesC]) ["A", "B", "C"] ["C"]
          SvgContent.blank = SvgContent.chart ("Cluster" :: axes ++ ["End"]) ∧
        axes ≠ [] ∧ axes.Sublist (chainKeys exVotesA) ∧
        ∀ chain, chain ∈ axes ↔ chain ∈ chainKeys exVotesA ∧
          ∃ r1 ∈ exVotesA :: [exVotesB], ∃ r2 ∈ exVotesA :: [exVotesB],
            List.lookup chain r1 ≠ List.lookup chain r2 :=
  ⟨by decide, by decide,
    ((parallel_axis_selection [exVotesA, exVotesB, exVotesC] ["A", "B", "C"] ["C"]
        SvgContent.blank).2.2 exVotesA [exVotesB] (by decide)).2.2
      ⟨"cosmoshub_2", by decide, exVotesA, by simp, exVotesB, by simp, by decide⟩⟩

/-- C5: counterexample. (1) `A` has a field for proposal 1 only and `B` also one for
proposal 2: both are visible and differ on the proposal axis `cosmoshub_2`, yet the
"all match" placeholder is shown, because the axes are read from the first record.
(2) The selected, non-hidden validator `C` has no record: the "no validators"
placeholder is shown, not the "all match" one. (3) With an empty record list the chart
drawn before stays. -/
theorem parallel_axis_selection_counterexample :
    (isChainKey "cosmoshub_2" = true ∧
      List.lookup "cosmoshub_2" exShortA ≠ List.lookup "cosmoshub_2" exVotesB ∧
      [exShortA, exVotesB].filter (visibleRecord ["A", "B"] []) = [exShortA, exVotesB] ∧
      renderParallel (some [exShortA, exVotesB]) ["A", "B"] [] SvgContent.blank
        = SvgContent.message allMatchText) ∧
    (("C" ∈ ["C"] ∧ "C" ∉ ([] : List String)) ∧
      renderParallel (some [exVotesA]) ["C"] [] SvgContent.blank
        = SvgContent.message noValidatorText ∧
      SvgContent.message noValidatorText ≠ SvgContent.message allMatchText) ∧
    renderParallel (some []) ["A"] [] (SvgContent.chart ["Cluster", "cosmoshub_2", "End"])
      = SvgContent.chart ["Cluster", "cosmoshub_2", "End"] := by
  decide

/-! ## Theorems: the participation rate -/

/-- Counting with `reduce` is the length of the filtered list. -/
theorem foldl_count (p : Proposal → Bool) (data : List Proposal) (init : Nat) :
    data.foldl (fun count proposal => if p proposal then count + 1 else count) init
      = init + (data.filter p).length := by
  induction data generalizing init with
  | nil => simp
  | cons x xs ih =>
    rw [List.foldl_cons, ih]
    by_cases hx : p x = true
    · simp [hx]
      omega
    · simp [hx]

/-- The guard of `calculateParticipationRate`: a missing validator, missing props, a
hidden validator and a validator without a record all give 0. -/
theorem calculateParticipationRate_zero (isValidatorHidden : String → Bool)
    (selectedChain : String) (validator : Option String) (data : Option (List Proposal))
    (parallelData : Option (List VoteRecord))
    (h : validator = none ∨ validator = some "" ∨ data = none ∨ parallelData = none ∨
      (∃ v, validator = some v ∧ isValidatorHidden v = true) ∨
      (∃ v records, validator = some v ∧ parallelData = some records ∧
        records.find? (fun d => decide (d.get "voter" = some (FieldVal.str v))) = none)) :
    calculateParticipationRate isValidatorHidden selectedChain validator data parallelData
      = some 0 := by
  rcases h with h | h | h | h | ⟨v, h, hh⟩ | ⟨v, records, h, hp, hf⟩
  · subst h
    rfl
  · subst h
    cases data <;> cases parallelData <;> simp [calculateParticipationRate]
  · subst h
    cases validator <;> rfl
  · subst h
    cases validator <;> cases data <;> rfl
  · subst h
    cases data <;> cases parallelData <;> simp [calculateParticipationRate, hh]
  · subst h hp
    cases data with
    | none => rfl
    | some data =>
      by_cases hg : (v = "" || isValidatorHidden v) = true
      · simp only [calculateParticipationRate, hg, if_true]
      · simp only [calculateParticipationRate, hg, hf, if_false, Bool.false_eq_true]

theorem roundHalfEven_abs_sub_le (m : ℚ) : |(roundHalfEven m : ℚ) - m| ≤ 1 / 2 := by
  have h1 : (⌊m⌋ : ℚ) ≤ m := Int.floor_le m
  have h2 : m < (⌊m⌋ : ℚ) + 1 := Int.lt_floor_add_one m
  unfold roundHalfEven
  simp only []
  split_ifs with ha hb hc
  · rw [abs_le]; constructor <;> linarith
  · push_cast
    rw [abs_le]; constructor <;> linarith
  · rw [abs_le]; constructor <;> linarith
  · push_cast
    rw [abs_le]; constructor <;> linarith

theorem roundDouble_abs_sub_le (q : ℚ) :
    |roundDouble q - q| ≤ 2 ^ binaryExponent q / 2 := by
  have hpow : (0 : ℚ) < 2 ^ binaryExponent q := zpow_pos (by norm_num) _
  by_cases hq : q = 0
  · subst hq
    simp only [roundDouble, if_true, sub_self, abs_zero]
    positivity
  · have hm := roundHalfEven_abs_sub_le (|q| / 2 ^ binaryExponent q)
    have hsplit : q = (if q < 0 then -1 else 1) * (|q| / 2 ^ binaryExponent q)
        * 2 ^ binaryExponent q := by
      have habs : |q| / 2 ^ binaryExponent q * 2 ^ binaryExponent q = |q| :=
        div_mul_cancel₀ _ (ne_of_gt hpow)
      split_ifs with hneg
      · rw [mul_assoc, habs, abs_of_neg hneg]; ring
      · rw [mul_assoc, habs, abs_of_nonneg (not_lt.mp hneg)]; ring
    have hrd : roundDouble q = (if q < 0 then -1 else 1) *
        (roundHalfEven (|q| / 2 ^ binaryExponent q) : ℚ) * 2 ^ binaryExponent q := by
      simp only [roundDouble, hq, if_false]
    have hdiff : roundDouble q - q
        = (if q < 0 then -1 else 1) *
          (((roundHalfEven (|q| / 2 ^ binaryExponent q) : ℚ)) - |q| / 2 ^ binaryExponent q)
          * 2 ^ binaryExponent q := by
      rw [hrd]
      linear_combination hsplit.symm
    rw [hdiff, abs_mul, abs_mul, abs_of_pos hpow]
    have hs : |(if q < 0 then (-1 : ℚ) else 1)| = 1 := by
      split_ifs <;> simp
    rw [hs, one_mul]
    calc |((roundHalfEven (|q| / 2 ^ binaryExponent q) : ℚ)) - |q| / 2 ^ binaryExponent q|
          * 2 ^ binaryExponent q
        ≤ 1 / 2 * 2 ^ binaryExponent q := mul_le_mul_of_nonneg_right hm (le_of_lt hpow)
      _ = 2 ^ binaryExponent q / 2 := by ring

/-- Relative error of rounding in the normal range. -/
theorem roundDouble_rel (q : ℚ) (hq : (2 : ℚ) ^ (-1022 : ℤ) ≤ |q|) :
    |roundDouble q - q| ≤ |q| / 2 ^ 53 := by
  have hpos : 0 < |q| := lt_of_lt_of_le (zpow_pos (by norm_num) _) hq
  have hlog : (-1022 : ℤ) ≤ Int.log 2 |q| := by
    have := (Int.zpow_le_iff_le_log (b := 2) (by norm_num) hpos (x := -1022)).mp
      (by exact_mod_cast hq)
    exact this
  have he : binaryExponent q = Int.log 2 |q| - 52 := by
    unfold binaryExponent
    apply max_eq_left
    omega
  have hle : (2 : ℚ) ^ Int.log 2 |q| ≤ |q| := by
    have := Int.zpow_log_le_self (b := 2) (r := |q|) (by norm_num) hpos
    exact_mod_cast this
  have h := roundDouble_abs_sub_le q
  rw [he] at h
  calc |roundDouble q - q| ≤ 2 ^ (Int.log 2 |q| - 52) / 2 := h
    _ = 2 ^ Int.log 2 |q| / 2 ^ 53 := by
      rw [zpow_sub₀ (by norm_num : (2 : ℚ) ≠ 0)]
      norm_num
      ring
    _ ≤ |q| / 2 ^ 53 := by
      apply div_le_div_of_nonneg_right hle
      positivity

theorem roundDouble_zero : roundDouble 0 = 0 := by
  simp [roundDouble]

/-- The smallest normal double lies below 2^-40. -/
theorem two_zpow_neg1022_le : (2 : ℚ) ^ (-1022 : ℤ) ≤ 1 / 2 ^ 40 := by
  have h1 : (2 : ℚ) ^ (-1022 : ℤ) ≤ 2 ^ (-40 : ℤ) :=
    zpow_le_zpow_right₀ (by norm_num) (by norm_num)
  have h2 : (2 : ℚ) ^ (-40 : ℤ) = 1 / 2 ^ 40 := by
    rw [zpow_neg, one_div]
    norm_cast
  rw [← h2]
  exact h1

/-- Two roundings, of `q` and of `100 * roundDouble q`, stay within `4 / 2^53` of
`100 * q`, relatively, for `q` in the normal range. -/
theorem fmul_fdiv_100_bound (q : ℚ) (hq : 1 / 2 ^ 40 ≤ q) :
    |roundDouble (roundDouble q * 100) - 100 * q| ≤ 100 * q / 2 ^ 51 := by
  have hqpos : 0 < q := lt_of_lt_of_le (by positivity) hq
  have hd0 : (0 : ℚ) < 1 / 2 ^ 53 := by positivity
  have hd1 : (1 : ℚ) / 2 ^ 53 ≤ 1 / 2 := by norm_num
  have hx := roundDouble_rel q (by
    rw [abs_of_pos hqpos]
    exact le_trans two_zpow_neg1022_le hq)
  rw [abs_of_pos hqpos, abs_le] at hx
  have hxlow : q / 2 ≤ roundDouble q := by
    have : q / 2 ^ 53 ≤ q / 2 := by
      apply div_le_div_of_nonneg_left (le_of_lt hqpos) (by norm_num) (by norm_num)
    linarith [hx.1]
  have hxpos : 0 < roundDouble q := lt_of_lt_of_le (by positivity) hxlow
  have hx100pos : 0 < roundDouble q * 100 := by positivity
  have hy := roundDouble_rel (roundDouble q * 100) (by
    rw [abs_of_pos hx100pos]
    have h1 : (1 : ℚ) / 2 ^ 40 ≤ roundDouble q * 100 := by
      have : (1 : ℚ) / 2 ^ 40 / 2 ≤ roundDouble q := le_trans (by linarith) hxlow
      linarith
    exact le_trans two_zpow_neg1022_le h1)
  rw [abs_of_pos hx100pos, abs_le] at hy
  have hxup : roundDouble q ≤ 2 * q := by
    have : q / 2 ^ 53 ≤ q := by
      apply div_le_self (le_of_lt hqpos)
      norm_num
    linarith [hx.2]
  have hxd : roundDouble q * 100 / 2 ^ 53 ≤ 2 * q * 100 / 2 ^ 53 := by
    apply div_le_div_of_nonneg_right _ (by positivity)
    linarith
  have e1 : 100 * q / 2 ^ 51 = 4 * (100 * q / 2 ^ 53) := by norm_num; ring
  rw [abs_le, e1]
  constructor
  · have := hy.1
    have := hx.1
    linarith
  · have := hy.2
    have := hx.2
    linarith

theorem VoteRecord.get_proposalKey (record : VoteRecord) (selectedChain : String) (p : Proposal) :
    record.get (proposalKey selectedChain p)
      = List.lookup (selectedChain ++ "_" ++ p.id) record :=
  VoteRecord.get_eq_lookup record _

/-- C6, as amended. For every non-empty proposal list (of fewer than 2^32 proposals),
chain and validator that is present and not hidden, whose record in the vote data (the
first record with that voter) holds no empty or zero vote: the participation rate is
`(count / total) * 100` in double precision, where `count` is the number of proposals
whose vote under the key `${chain}_${id}` is present and not `NO_VOTE` and `total` the
number of proposals, and it differs from `100 * count / total` by at most the fraction
`1 / 2^51` of that value. The rate is 0 whenever the validator is missing, is hidden,
or has no record. -/
theorem calculateParticipationRate_spec (isValidatorHidden : String → Bool)
    (selectedChain validator : String) (proposals : List Proposal)
    (parallelData : List VoteRecord) (hne : proposals ≠ [])
    (hlen : proposals.length < 2 ^ 32) :
    (∀ record : VoteRecord, validator ≠ "" → isValidatorHidden validator = false →
      parallelData.find?
          (fun d => decide (List.lookup "voter" d = some (FieldVal.str validator)))
        = some record →
      (∀ p ∈ proposals,
        List.lookup (selectedChain ++ "_" ++ p.id) record ≠ some (FieldVal.str "") ∧
        List.lookup (selectedChain ++ "_" ++ p.id) record ≠ some (FieldVal.num 0)) →
      ∃ rate : ℚ,
        calculateParticipationRate isValidatorHidden selectedChain (some validator)
          (some proposals) (some parallelData) = some rate ∧
        rate = roundDouble (roundDouble
          ((votedCount selectedChain proposals record : ℚ) / (proposals.length : ℚ)) * 100) ∧
        |rate - participationFormula selectedChain proposals record|
          ≤ participationFormula selectedChain proposals record / 2 ^ 51) ∧
    calculateParticipationRate isValidatorHidden selectedChain none (some proposals)
        (some parallelData) = some 0 ∧
    (isValidatorHidden validator = true →
      calculateParticipationRate isValidatorHidden selectedChain (some validator)
        (some proposals) (some parallelData) = some 0) ∧
    (parallelData.find?
        (fun d => decide (List.lookup "voter" d = some (FieldVal.str validator))) = none →
      calculateParticipationRate isValidatorHidden selectedChain (some validator)
        (some proposals) (some parallelData) = some 0) := by
  have hfindeq : parallelData.find?
        (fun d => decide (d.get "voter" = some (FieldVal.str validator)))
      = parallelData.find?
        (fun d => decide (List.lookup "voter" d = some (FieldVal.str validator))) := by
    congr 1
    funext d
    rw [VoteRecord.get_eq_lookup]
  refine ⟨?_, rfl, ?_, ?_⟩
  · intro record hv hhid hfind hwf
    have hlen0 : proposals.length ≠ 0 := by simpa using hne
    have hfilter : (proposals.filter (fun proposal =>
          truthyVal (record.get (proposalKey selectedChain proposal)) &&
            decide (record.get (proposalKey selectedChain proposal)
              ≠ some (FieldVal.str "NO_VOTE")))).length
        = votedCount selectedChain proposals record := by
      unfold votedCount
      congr 1
      apply List.filter_congr
      intro p hp
      obtain ⟨h1, h2⟩ := hwf p hp
      rw [VoteRecord.get_proposalKey]
      congr 1
      cases hget : List.lookup (selectedChain ++ "_" ++ p.id) record with
      | none => rfl
      | some val =>
        rw [hget] at h1 h2
        cases val with
        | str t =>
          have : t ≠ "" := fun h => h1 (by rw [h])
          simp [truthyVal, this]
        | num q =>
          have : q ≠ 0 := fun h => h2 (by rw [h])
          simp [truthyVal, this]
    have hg : (decide (validator = "") || isValidatorHidden validator) = false := by
      simp [hv, hhid]
    have hcalc : calculateParticipationRate isValidatorHidden selectedChain (some validator)
        (some proposals) (some parallelData)
        = some (roundDouble (roundDouble
          ((votedCount selectedChain proposals record : ℚ) / (proposals.length : ℚ)) * 100)) := by
      simp only [calculateParticipationRate, hg, hfindeq, hfind, hlen0, Bool.false_eq_true,
        if_false, fmul, fdiv]
      rw [foldl_count (fun proposal =>
          truthyVal (record.get (proposalKey selectedChain proposal)) &&
            decide (record.get (proposalKey selectedChain proposal)
              ≠ some (FieldVal.str "NO_VOTE"))) proposals 0, Nat.zero_add, hfilter]
    refine ⟨_, hcalc, rfl, ?_⟩
    have htpos : (0 : ℚ) < (proposals.length : ℚ) := by
      exact_mod_cast Nat.pos_of_ne_zero hlen0
    have hformula : participationFormula selectedChain proposals record
        = 100 * ((votedCount selectedChain proposals record : ℚ) / (proposals.length : ℚ)) := by
      unfold participationFormula
      ring
    rw [hformula]
    by_cases hc : votedCount selectedChain proposals record = 0
    · rw [hc]
      simp [roundDouble_zero]
    · apply fmul_fdiv_100_bound
      have hcpos : (1 : ℚ) ≤ (votedCount selectedChain proposals record : ℚ) := by
        exact_mod_cast Nat.one_le_iff_ne_zero.mpr hc
      have htle : (proposals.length : ℚ) ≤ 2 ^ 40 := by
        have h32 : (proposals.length : ℚ) < 2 ^ 32 := by exact_mod_cast hlen
        have : (2 : ℚ) ^ 32 ≤ 2 ^ 40 := by norm_num
        linarith
      rw [div_le_div_iff₀ (by positivity) htpos]
      nlinarith
  · intro hhid
    exact calculateParticipationRate_zero _ _ _ _ _
      (Or.inr (Or.inr (Or.inr (Or.inr (Or.inl ⟨validator, rfl, hhid⟩)))))
  · intro hfind
    rw [← hfindeq] at hfind
    exact calculateParticipationRate_zero _ _ _ _ _
      (Or.inr (Or.inr (Or.inr (Or.inr (Or.inr ⟨validator, parallelData, rfl, rfl, hfind⟩)))))

/-- The formula at proposals `[P1, P2]` and votes `{P1: YES, P2: NO_VOTE}` is 50. -/
theorem participationFormula_example :
    participationFormula "cosmoshub" exProposals exVotesB = 50 := by
  have hcount : votedCount "cosmoshub" exProposals exVotesB = 1 := by decide
  have hlen : exProposals.length = 2 := rfl
  unfold participationFormula
  rw [hcount, hlen]
  norm_num

/-- Witness for C6 as amended: proposals `[P1, P2]`, validator `B` visible, with votes
`{P1: YES, P2: NO_VOTE}`: the rate is within `50 / 2^51` of 50. -/
theorem calculateParticipationRate_spec_witness :
    (exProposals ≠ [] ∧ exProposals.length < 2 ^ 32) ∧
    ∃ rate : ℚ,
      calculateParticipationRate (fun _ => false) "cosmoshub" (some "B") (some exProposals)
        (some [exVotesA, exVotesB]) = some rate ∧
      rate = roundDouble (roundDouble
        ((votedCount "cosmoshub" exProposals exVotesB : ℚ) / (exProposals.length : ℚ)) * 100) ∧
      |rate - participationFormula "cosmoshub" exProposals exVotesB|
        ≤ participationFormula "cosmoshub" exProposals exVotesB / 2 ^ 51 :=
  ⟨⟨by decide, by decide⟩,
    (calculateParticipationRate_spec (fun _ => false) "cosmoshub" "B" exProposals
      [exVotesA, exVotesB] (by decide) (by decide)).1 exVotesB (by decide) rfl rfl
      (by decide)⟩

/-- The rate of the visible validator `B` with votes `{P1: YES, P2: NO_VOTE}` is
exactly 50, and the rate of `D`, who voted on 7 of 25 proposals, is
28.000000000000004, that is `28 + 2^-48`. -/
theorem calculateParticipationRate_examples :
    calculateParticipationRate (fun _ => false) "cosmoshub" (some "B") (some exProposals)
      (some [exVotesA, exVotesB]) = some 50 ∧
    calculateParticipationRate (fun _ => false) "cosmoshub" (some "D") (some exProposals25)
      (some [exVotesD]) = some (28 + 1 / 2 ^ 48) := by
  decide!

/-- C6: counterexample. (1) With validator `B` hidden, proposals `[P1, P2]` and the
votes `{P1: YES, P2: NO_VOTE}` in the record of `B`, the function returns 0, while 100
times the number of proposals voted on over the number of proposals is 50. (2) For the
visible validator `D`, who voted on 7 of 25 proposals, the function returns
`28 + 2^-48`, not 28. -/
theorem calculateParticipationRate_counterexample :
    (calculateParticipationRate (fun _ => true) "cosmoshub" (some "B") (some exProposals)
        (some [exVotesA, exVotesB]) = some 0 ∧
      participationFormula "cosmoshub" exProposals exVotesB = 50) ∧
    (participationFormula "cosmoshub" exProposals25 exVotesD = 28 ∧
      calculateParticipationRate (fun _ => false) "cosmoshub" (some "D") (some exProposals25)
        (some [exVotesD]) = some (28 + 1 / 2 ^ 48)) := by
  decide!

/-! ## Theorems: select all -/

/-- The handler `handleSelectAll` compares the number of checked rows with the number
of non-base rows. -/
theorem handleSelectAll_eq (rows : List DisplayRow) (checked : List String) :
    handleSelectAll rows checked
      = if checked.length = (rows.drop 1).length then []
        else (rows.drop 1).map (fun r => r.validator) := rfl

/-- A duplicate-free list drawn from another list of the same length has the same
members. -/
theorem mem_iff_of_nodup_subset_length (checked others : List String) (hnd : checked.Nodup)
    (hsub : ∀ v ∈ checked, v ∈ others) (hlen : checked.length = others.length) :
    ∀ v, v ∈ checked ↔ v ∈ others := by
  have hsp : checked.Subperm others := List.subperm_of_subset hnd hsub
  have hperm : checked.Perm others := hsp.perm_of_length_le (le_of_eq hlen.symm)
  exact fun v => hperm.mem_iff

/-- C11, as amended. For every row list and every checked-row set, `handleSelectAll`
empties the checked-row set when the number of checked rows equals the number of
non-base rows, and otherwise sets it to the validators of all non-base rows in row
order; when the non-base rows have distinct validators and the checked-row set is
duplicate-free and drawn from them, the first case is exactly the case that the
checked-row set equals the set of all non-base rows. -/
theorem handleSelectAll_spec (rows : List DisplayRow) (checked : List String) :
    (checked.length = (rows.drop 1).length → handleSelectAll rows checked = []) ∧
    (checked.length ≠ (rows.drop 1).length →
      handleSelectAll rows checked = (rows.drop 1).map (fun r => r.validator)) ∧
    (checked.Nodup → ((rows.drop 1).map (fun r => r.validator)).Nodup →
      (∀ v ∈ checked, v ∈ (rows.drop 1).map (fun r => r.validator)) →
      ((∀ v, v ∈ checked ↔ v ∈ (rows.drop 1).map (fun r => r.validator)) →
        handleSelectAll rows checked = []) ∧
      (¬ (∀ v, v ∈ checked ↔ v ∈ (rows.drop 1).map (fun r => r.validator)) →
        handleSelectAll rows checked = (rows.drop 1).map (fun r => r.validator))) := by
  refine ⟨?_, ?_, ?_⟩
  · intro h
    rw [handleSelectAll_eq, if_pos h]
  · intro h
    rw [handleSelectAll_eq, if_neg h]
  · intro hnd hrows hsub
    constructor
    · intro hset
      have hperm : checked.Perm ((rows.drop 1).map (fun r => r.validator)) :=
        (List.perm_ext_iff_of_nodup hnd hrows).mpr hset
      have hlen : checked.length = (rows.drop 1).length := by
        rw [hperm.length_eq, List.length_map]
      rw [handleSelectAll_eq, if_pos hlen]
    · intro hset
      have hlen : checked.length ≠ (rows.drop 1).length := by
        intro h
        apply hset
        exact mem_iff_of_nodup_subset_length checked _ hnd hsub (by rw [h, List.length_map])
      rw [handleSelectAll_eq, if_neg hlen]

/-- Witness for C11 as amended: rows `A`, `B`, `C` with only `B` checked; select-all
checks `B` and `C`. -/
theorem handleSelectAll_spec_witness :
    (["B"].Nodup ∧ ((exRows.drop 1).map (fun r => r.validator)).Nodup ∧
      (∀ v ∈ ["B"], v ∈ (exRows.drop 1).map (fun r => r.validator)) ∧
      ¬ (∀ v, v ∈ ["B"] ↔ v ∈ (exRows.drop 1).map (fun r => r.validator))) ∧
    handleSelectAll exRows ["B"] = (exRows.drop 1).map (fun r => r.validator) := by
  have hmap : (exRows.drop 1).map (fun r => r.validator) = ["B", "C"] := rfl
  have h1 : (["B"] : List String).Nodup := by decide
  have h2 : ((exRows.drop 1).map (fun r => r.validator)).Nodup := by rw [hmap]; decide
  have h3 : ∀ v ∈ ["B"], v ∈ (exRows.drop 1).map (fun r => r.validator) := by
    rw [hmap]; decide
  have h4 : ¬ (∀ v, v ∈ ["B"] ↔ v ∈ (exRows.drop 1).map (fun r => r.validator)) := by
    rw [hmap]
    intro h
    exact absurd ((h "C").mpr (by decide)) (by decide)
  exact ⟨⟨h1, h2, h3, h4⟩, ((handleSelectAll_spec exRows ["B"]).2.2 h1 h2 h3).2 h4⟩

/-- C11: counterexample. With rows `A` (the base), `B`, `C` and the checked-row set
`[A, B]`, which is not the set `{B, C}` of all non-base rows, `handleSelectAll` empties
the checked-row set instead of setting it to `[B, C]`. -/
theorem handleSelectAll_counterexample :
    (exRows.drop 1).map (fun r => r.validator) = ["B", "C"] ∧
    ¬ (∀ v, v ∈ ["A", "B"] ↔ v ∈ (exRows.drop 1).map (fun r => r.validator)) ∧
    handleSelectAll exRows ["A", "B"] = [] ∧
    handleSelectAll exRows ["A", "B"] ≠ (exRows.drop 1).map (fun r => r.validator) := by
  have hmap : (exRows.drop 1).map (fun r => r.validator) = ["B", "C"] := rfl
  have hres : handleSelectAll exRows ["A", "B"] = [] := rfl
  refine ⟨hmap, ?_, hres, ?_⟩
  · rw [hmap]
    intro h
    exact absurd ((h "A").mp (by decide)) (by decide)
  · rw [hres, hmap]
    decide

/-! ## Theorems: sorting an empty table -/

/-- C16: evaluation at the failing input. Validators `A` and `B` are selected and the
fetched list has no record of the base, so the load leaves the row list empty; a click
on the match-rate column then stores a row list of length 1 whose only entry is
`undefined`, not a row of the previous (empty) list. -/
theorem handleSort_empty_rows :
    (loadEffect (some "cosmoshub") ["A", "B"] none (some []) exState).validatorData = [] ∧
    handleSort ordinalCollation (some "cosmoshub") ["A", "B"] initialSortConfig [] SortKey.matchRate
      = SortOutcome.updated ⟨SortKey.matchRate, Direction.asc⟩ [none] ∧
    ([none] : List (Option DisplayRow)).length ≠ ([] : List DisplayRow).length := by
  refine ⟨?_, rfl, by decide⟩
  rw [loadEffect_fetched "cosmoshub" ["A", "B"] none [] exState (by decide) (by decide)]
  rfl

/-! ## Theorems: the centre label -/

theorem lastIndexOf_eq_none_iff (c : Nat) (l : CodeUnits) :
    lastIndexOf c l = none ↔ ∀ j : Nat, l[j]? ≠ some c := by
  induction l with
  | nil => simp [lastIndexOf]
  | cons x xs ih =>
    unfold lastIndexOf
    cases h : lastIndexOf c xs with
    | some i =>
      simp only [reduceCtorEq, false_iff, not_forall, not_not]
      have hne : ¬ ∀ j : Nat, xs[j]? ≠ some c := fun hall => by
        rw [ih.mpr hall] at h
        exact absurd h (by simp)
      obtain ⟨j, hj⟩ := not_forall.mp hne
      exact ⟨j + 1, by simpa using hj⟩
    | none =>
      have hall := ih.mp h
      by_cases hx : x = c
      · simp only [hx, if_true, reduceCtorEq, false_iff, not_forall, not_not]
        exact ⟨0, by simp⟩
      · simp only [hx, if_false, true_iff]
        intro j
        cases j with
        | zero => simpa using hx
        | succ k => simpa using hall k

theorem lastIndexOf_eq_some_iff (c : Nat) (l : CodeUnits) (i : Nat) :
    lastIndexOf c l = some i ↔ l[i]? = some c ∧ ∀ j : Nat, i < j → l[j]? ≠ some c := by
  induction l generalizing i with
  | nil => simp [lastIndexOf]
  | cons x xs ih =>
    unfold lastIndexOf
    cases h : lastIndexOf c xs with
    | some k =>
      obtain ⟨hk, hlast⟩ := (ih k).mp h
      constructor
      · intro hi
        simp only [Option.some.injEq] at hi
        subst hi
        refine ⟨by simpa using hk, ?_⟩
        intro j hj
        cases j with
        | zero => omega
        | succ m => simpa using hlast m (by omega)
      · rintro ⟨hi, hafter⟩
        cases i with
        | zero =>
          have := hafter (k + 1) (by omega)
          simp [hk] at this
        | succ m =>
          have hm : lastIndexOf c xs = some m :=
            (ih m).mpr ⟨by simpa using hi, fun j hj => by simpa using hafter (j + 1) (by omega)⟩
          rw [h] at hm
          simp only [Option.some.injEq] at hm
          simp [hm]
    | none =>
      have hall := (lastIndexOf_eq_none_iff c xs).mp h
      by_cases hx : x = c
      · simp only [hx, if_true, Option.some.injEq]
        constructor
        · intro hi
          subst hi
          refine ⟨by simp, ?_⟩
          intro j hj
          cases j with
          | zero => omega
          | succ m => simpa using hall m
        · rintro ⟨hi, _⟩
          cases i with
          | zero => rfl
          | succ m =>
            have := hall m
            simp at hi
            exact absurd hi this
      · simp only [hx, if_false, reduceCtorEq, false_iff, not_and, not_forall]
        intro hi
        cases i with
        | zero => simp at hi; exact absurd hi hx
        | succ m =>
          have := hall m
          simp at hi
          exact absurd hi this

theorem getElem?_take15 (l : CodeUnits) (j : Nat) (hj : j < 15) : (l.take 15)[j]? = l[j]? :=
  List.getElem?_take_of_lt hj

theorem lastIndexOf_take15_lt (l : CodeUnits) (k : Nat)
    (h : lastIndexOf spaceUnit (l.take 15) = some k) : k < 15 := by
  have hk := ((lastIndexOf_eq_some_iff spaceUnit (l.take 15) k).mp h).1
  by_contra hge
  rw [List.getElem?_take_eq_none (Nat.le_of_not_lt hge)] at hk
  exact absurd hk (by simp)

/-- The split of a long name at a space that is the last one among characters 1 to 14. -/
theorem splitValidatorName_space (name : CodeUnits) (hlong : 15 < name.length) (i : Nat)
    (hi : 0 < i) (hlt : i < 15) (hsp : name[i]? = some spaceUnit)
    (hlast : ∀ j : Nat, i < j → j < 15 → name[j]? ≠ some spaceUnit) :
    splitValidatorName name
      = { line1 := name.take i
          line2 := some (name.drop (i + 1)) } := by
  have hidx : lastIndexOf spaceUnit (name.take 15) = some i := by
    rw [lastIndexOf_eq_some_iff]
    refine ⟨by rw [getElem?_take15 _ i hlt]; exact hsp, ?_⟩
    intro j hj
    by_cases hj15 : j < 15
    · rw [getElem?_take15 _ j hj15]
      exact hlast j hj hj15
    · rw [List.getElem?_take_eq_none (Nat.le_of_not_lt hj15)]
      simp
  have hlen : ¬ name.length ≤ 15 := Nat.not_le.mpr hlong
  have hpos : ((i : Int) > 0) := by exact_mod_cast hi
  simp only [splitValidatorName, hlen, if_false, hidx, hpos, if_true, Int.toNat_ofNat]

/-- The hard break of a long name with no space among characters 1 to 14. -/
theorem splitValidatorName_hard (name : CodeUnits) (hlong : 15 < name.length)
    (hno : ∀ j : Nat, 0 < j → j < 15 → name[j]? ≠ some spaceUnit) :
    splitValidatorName name
      = { line1 := name.take 15
          line2 := some (name.drop 15) } := by
  have hlen : ¬ name.length ≤ 15 := Nat.not_le.mpr hlong
  cases hidx : lastIndexOf spaceUnit (name.take 15) with
  | none =>
    simp only [splitValidatorName, hlen, if_false, hidx]
    rfl
  | some k =>
    have hk15 := lastIndexOf_take15_lt name k hidx
    have hk := ((lastIndexOf_eq_some_iff spaceUnit _ k).mp hidx).1
    rw [getElem?_take15 _ k hk15] at hk
    have hk0 : k = 0 := by
      by_contra hne
      exact hno k (Nat.pos_of_ne_zero hne) hk15 hk
    subst hk0
    simp only [splitValidatorName, hlen, if_false, hidx]
    rfl

/-- C13, as amended. Characters are UTF-16 code units, as JavaScript counts them. A name
of at most 15 characters stays on one line (`line2` null). A longer name gives two lines
with `line1` of at most 15 characters: it is split at the last space among its first 15
characters that is not the first character (`line1` the text before that space, `line2`
the text after it, the space dropped), and when characters 1 to 14 hold no space,
`line1` is the first 15 characters and `line2` the rest. -/
theorem splitValidatorName_spec (name : CodeUnits) :
    (name.length ≤ 15 → splitValidatorName name = { line1 := name, line2 := none }) ∧
    (15 < name.length →
      (∀ i : Nat, 0 < i → i < 15 → name[i]? = some spaceUnit →
        (∀ j : Nat, i < j → j < 15 → name[j]? ≠ some spaceUnit) →
        splitValidatorName name
          = { line1 := name.take i
              line2 := some (name.drop (i + 1)) }) ∧
      ((∀ j : Nat, 0 < j → j < 15 → name[j]? ≠ some spaceUnit) →
        splitValidatorName name
          = { line1 := name.take 15
              line2 := some (name.drop 15) }) ∧
      (splitValidatorName name).line1.length ≤ 15 ∧
      (splitValidatorName name).line2.isSome = true) := by
  refine ⟨?_, ?_⟩
  · intro h
    simp only [splitValidatorName, h, if_true]
  · intro hlong
    refine ⟨fun i hi hlt hsp hlast => splitValidatorName_space name hlong i hi hlt hsp hlast,
      splitValidatorName_hard name hlong, ?_⟩
    by_cases hno : ∀ j : Nat, 0 < j → j < 15 → name[j]? ≠ some spaceUnit
    · rw [splitValidatorName_hard name hlong hno]
      refine ⟨?_, rfl⟩
      show (name.take 15).length ≤ 15
      rw [List.length_take]
      exact Nat.min_le_left _ _
    · have hex : ∃ i : Nat, (0 < i ∧ i < 15 ∧ name[i]? = some spaceUnit) ∧
          ∀ j : Nat, i < j → j < 15 → name[j]? ≠ some spaceUnit := by
        cases hidx : lastIndexOf spaceUnit (name.take 15) with
        | none =>
          exfalso
          apply hno
          intro j _ hj15 hj
          have := (lastIndexOf_eq_none_iff spaceUnit _).mp hidx j
          rw [getElem?_take15 _ j hj15] at this
          exact this hj
        | some k =>
          have hk15 := lastIndexOf_take15_lt name k hidx
          obtain ⟨hk, hafter⟩ := (lastIndexOf_eq_some_iff spaceUnit _ k).mp hidx
          rw [getElem?_take15 _ k hk15] at hk
          have hafter2 : ∀ j : Nat, k < j → j < 15 → name[j]? ≠ some spaceUnit := by
            intro j hj hj15
            have := hafter j hj
            rwa [getElem?_take15 _ j hj15] at this
          have hkpos : 0 < k := by
            by_contra hk0
            have hk0 : k = 0 := by omega
            subst hk0
            exact hno hafter2
          exact ⟨k, ⟨hkpos, hk15, hk⟩, hafter2⟩
      obtain ⟨i, ⟨hi, hlt, hsp⟩, hlast⟩ := hex
      rw [splitValidatorName_space name hlong i hi hlt hsp hlast]
      refine ⟨?_, rfl⟩
      show (name.take i).length ≤ 15
      rw [List.length_take]
      exact le_trans (Nat.min_le_left _ _) (Nat.le_of_lt hlt)

/-- Witness for C13 as amended: the name `🚀 WHEN MOON 🌕 WHEN LAMBO`, whose two emoji
take two code units each, breaks at the space at index 12, the last one among its first
15 code units. -/
theorem splitValidatorName_spec_witness :
    15 < (toUtf16 "🚀 WHEN MOON 🌕 WHEN LAMBO").length ∧
    splitValidatorName (toUtf16 "🚀 WHEN MOON 🌕 WHEN LAMBO")
      = { line1 := toUtf16 "🚀 WHEN MOON", line2 := some (toUtf16 "🌕 WHEN LAMBO") } := by
  refine ⟨by decide, ?_⟩
  have h := ((splitValidatorName_spec (toUtf16 "🚀 WHEN MOON 🌕 WHEN LAMBO")).2 (by decide)).1 12
    (by decide) (by decide) (by decide)
    (by intro j h1 h2; interval_cases j <;> decide)
  rw [h]
  decide

/-- A name of eight rockets has 16 code units, so it is broken after 15 of them, in
the middle of the last rocket's surrogate pair. -/
theorem splitValidatorName_rockets :
    (toUtf16 "🚀🚀🚀🚀🚀🚀🚀🚀").length = 16 ∧
    splitValidatorName (toUtf16 "🚀🚀🚀🚀🚀🚀🚀🚀")
      = { line1 := toUtf16 "🚀🚀🚀🚀🚀🚀🚀" ++ [0xD83D], line2 := some [0xDE80] } := by
  decide

/-- C13: counterexample. In the name ` abcdefghijklmnopq` of 18 characters the last
space within the first 15 characters is the first character; the function does not
split there (line 1 empty, line 2 the text after the space) but breaks at character 15. -/
theorem splitValidatorName_counterexample :
    15 < exSpaceName.length ∧
    lastIndexOf spaceUnit (exSpaceName.take 15) = some 0 ∧
    splitAtLastSpace exSpaceName
      = { line1 := [], line2 := some (toUtf16 "abcdefghijklmnopq") } ∧
    splitValidatorName exSpaceName
      = { line1 := toUtf16 " abcdefghijklmn", line2 := some (toUtf16 "opq") } ∧
    splitValidatorName exSpaceName ≠ splitAtLastSpace exSpaceName := by
  decide

/-! ## Theorems: zoom -/

theorem roundHalfEven_intCast (k : ℤ) : roundHalfEven (k : ℚ) = k := by
  unfold roundHalfEven
  simp

theorem roundDouble_neg (q : ℚ) : roundDouble (-q) = -roundDouble q := by
  by_cases hq : q = 0
  · subst hq
    simp [roundDouble]
  · have hnq : -q ≠ 0 := neg_ne_zero.mpr hq
    have he : binaryExponent (-q) = binaryExponent q := by
      unfold binaryExponent
      rw [abs_neg]
    simp only [roundDouble, hq, hnq, if_false, he, abs_neg]
    rcases lt_or_gt_of_ne hq with hlt | hgt
    · have h1 : ¬ (-q < 0) := by
        rw [neg_lt_zero]
        exact not_lt.mpr (le_of_lt hlt)
      simp only [h1, hlt, if_true, if_false]
      ring
    · have h1 : -q < 0 := neg_lt_zero.mpr hgt
      have h2 : ¬ q < 0 := not_lt.mpr (le_of_lt hgt)
      simp only [h1, h2, if_true, if_false]
      ring

theorem roundHalfEven_nonneg (m : ℚ) (hm : 0 ≤ m) : 0 ≤ roundHalfEven m := by
  have hf : 0 ≤ ⌊m⌋ := Int.floor_nonneg.mpr hm
  unfold roundHalfEven
  simp only []
  split_ifs <;> omega

/-- Rounding keeps a number that is not positive not positive. -/
theorem roundDouble_nonpos (q : ℚ) (hq : q ≤ 0) : roundDouble q ≤ 0 := by
  by_cases h0 : q = 0
  · subst h0
    simp [roundDouble]
  · have hlt : q < 0 := lt_of_le_of_ne hq h0
    have hpow : (0 : ℚ) < 2 ^ binaryExponent q := zpow_pos (by norm_num) _
    have hr : (0 : ℚ) ≤ (roundHalfEven (|q| / 2 ^ binaryExponent q) : ℚ) := by
      exact_mod_cast roundHalfEven_nonneg _ (div_nonneg (abs_nonneg q) (le_of_lt hpow))
    simp only [roundDouble, h0, hlt, if_true, if_false]
    have := mul_nonneg hr (le_of_lt hpow)
    linarith

/-- A counting number below 2^53 is a double. -/
theorem roundDouble_natCast (k : Nat) (hk : k < 2 ^ 53) : roundDouble (k : ℚ) = k := by
  by_cases h0 : k = 0
  · subst h0
    simp [roundDouble]
  · have hkpos : (0 : ℚ) < (k : ℚ) := by exact_mod_cast Nat.pos_of_ne_zero h0
    have hkne : (k : ℚ) ≠ 0 := ne_of_gt hkpos
    have habs : |(k : ℚ)| = k := abs_of_pos hkpos
    have hlog : Int.log 2 (k : ℚ) = Nat.log 2 k := Int.log_natCast 2 k
    have hlt : Nat.log 2 k < 53 := Nat.log_lt_of_lt_pow h0 hk
    have he : binaryExponent (k : ℚ) = -((52 - Nat.log 2 k : ℕ) : ℤ) := by
      unfold binaryExponent
      rw [habs, hlog]
      have : ((Nat.log 2 k : ℤ) - 52) = -((52 - Nat.log 2 k : ℕ) : ℤ) := by omega
      rw [this]
      apply max_eq_left
      omega
    have hnot : ¬ (k : ℚ) < 0 := not_lt.mpr (le_of_lt hkpos)
    simp only [roundDouble, hkne, hnot, if_false, habs, he, zpow_neg, zpow_natCast]
    have hm : (k : ℚ) / (2 ^ (52 - Nat.log 2 k))⁻¹ = ((k * 2 ^ (52 - Nat.log 2 k) : ℤ) : ℚ) := by
      rw [div_inv_eq_mul]
      push_cast
      ring
    rw [hm, roundHalfEven_intCast]
    push_cast
    field_simp

theorem totalWidth_eq (n : Nat) (hlen : n < 2 ^ 32) : totalWidth n = ((n : ℚ) + 2) * 100 := by
  unfold totalWidth fmul fadd spacing
  have h1 : ((n : ℚ) + 2) = ((n + 2 : ℕ) : ℚ) := by push_cast; ring
  have h53 : (2 : ℕ) ^ 32 < 2 ^ 53 := by norm_num
  rw [h1, roundDouble_natCast (n + 2) (by omega)]
  have h2 : ((n + 2 : ℕ) : ℚ) * 100 = (((n + 2) * 100 : ℕ) : ℚ) := by push_cast; ring
  rw [h2, roundDouble_natCast ((n + 2) * 100) (by omega)]

theorem totalWidth_pos (n : Nat) (hlen : n < 2 ^ 32) : 0 < totalWidth n := by
  rw [totalWidth_eq n hlen]
  positivity

/-- The floor of the zoom scale is `870 / totalWidth` up to one rounding. -/
theorem minScale_rel (n : Nat) (hlen : n < 2 ^ 32) :
    |minScale n - 870 / totalWidth n| ≤ 870 / totalWidth n / 2 ^ 53 := by
  have htw := totalWidth_pos n hlen
  have hq : (1 : ℚ) / 2 ^ 40 ≤ 870 / totalWidth n := by
    rw [div_le_div_iff₀ (by positivity) htw, totalWidth_eq n hlen]
    have hle : n ≤ 4294967296 := by omega
    have h32 : (n : ℚ) ≤ 4294967296 := by exact_mod_cast hle
    norm_num
    linarith
  have hqpos : (0 : ℚ) < 870 / totalWidth n := by positivity
  have h := roundDouble_rel (870 / totalWidth n) (by
    rw [abs_of_pos hqpos]
    exact le_trans two_zpow_neg1022_le hq)
  rw [abs_of_pos hqpos] at h
  exact h

theorem minScale_le_two_iff (n : Nat) (hn : 1 ≤ n) (hlen : n < 2 ^ 32) :
    minScale n ≤ 2 ↔ 3 ≤ n := by
  have htw := totalWidth_pos n hlen
  have hrel := minScale_rel n hlen
  rw [abs_le] at hrel
  have hqpos : (0 : ℚ) < 870 / totalWidth n := by positivity
  have hd : 870 / totalWidth n / 2 ^ 53 ≤ 870 / totalWidth n / 16 := by
    apply div_le_div_of_nonneg_left (le_of_lt hqpos) (by norm_num) (by norm_num)
  constructor
  · intro h
    by_contra hlt
    have hn2 : n ≤ 2 := by omega
    have htwle : totalWidth n ≤ 400 := by
      rw [totalWidth_eq n hlen]
      have : (n : ℚ) ≤ 2 := by exact_mod_cast hn2
      linarith
    have hq : (870 : ℚ) / 400 ≤ 870 / totalWidth n :=
      div_le_div_of_nonneg_left (by norm_num) htw htwle
    have := hrel.1
    linarith
  · intro h
    have htwge : (500 : ℚ) ≤ totalWidth n := by
      rw [totalWidth_eq n hlen]
      have : (3 : ℚ) ≤ n := by exact_mod_cast h
      linarith
    have hq : 870 / totalWidth n ≤ (870 : ℚ) / 500 :=
      div_le_div_of_nonneg_left (by norm_num) (by norm_num) htwge
    have := hrel.2
    linarith

/-- At the floor scale the scaled diagram width, as computed, is 870 up to rounding. -/
theorem scaled_width_at_floor (n : Nat) (hlen : n < 2 ^ 32) :
    |fmul (minScale n) (totalWidth n) - 870| ≤ 1 / 2 ^ 42 := by
  have htw := totalWidth_pos n hlen
  have hrel := minScale_rel n hlen
  rw [abs_le] at hrel
  have hcancel : 870 / totalWidth n * totalWidth n = 870 := div_mul_cancel₀ _ (ne_of_gt htw)
  have hcancel2 : 870 / totalWidth n / 2 ^ 53 * totalWidth n = 870 / 2 ^ 53 := by
    field_simp
    ring
  have hlow : 870 - 870 / 2 ^ 53 ≤ minScale n * totalWidth n := by
    have := mul_le_mul_of_nonneg_right hrel.1 (le_of_lt htw)
    linarith
  have hup : minScale n * totalWidth n ≤ 870 + 870 / 2 ^ 53 := by
    have := mul_le_mul_of_nonneg_right hrel.2 (le_of_lt htw)
    linarith
  have hppos : (0 : ℚ) < minScale n * totalWidth n := by
    have : (0 : ℚ) < 870 - 870 / 2 ^ 53 := by norm_num
    linarith
  have h2 := roundDouble_rel (minScale n * totalWidth n) (by
    rw [abs_of_pos hppos]
    have h40 : (1 : ℚ) / 2 ^ 40 ≤ 870 - 870 / 2 ^ 53 := by norm_num
    exact le_trans two_zpow_neg1022_le (le_trans h40 hlow))
  rw [abs_of_pos hppos, abs_le] at h2
  have hdiv : minScale n * totalWidth n / 2 ^ 53 ≤ (870 + 870 / 2 ^ 53) / 2 ^ 53 :=
    div_le_div_of_nonneg_right hup (by positivity)
  have hc : (870 : ℚ) / 2 ^ 53 + (870 + 870 / 2 ^ 53) / 2 ^ 53 ≤ 1 / 2 ^ 42 := by norm_num
  unfold fmul
  rw [abs_le]
  constructor
  · have := h2.1
    linarith
  · have := h2.2
    linarith

/-- The offset is never positive; it is no less than the computed `minX` when that is
not positive, and it is 0, below `minX`, when `minX` is positive. -/
theorem zoomOffset_clamp (n : Nat) (scale tx : ℚ) :
    zoomOffset n scale tx ≤ 0 ∧
    (zoomMinX n scale ≤ 0 → zoomMinX n scale ≤ zoomOffset n scale tx) ∧
    (0 < zoomMinX n scale → zoomOffset n scale tx = 0) := by
  unfold zoomOffset
  refine ⟨min_le_left _ _, ?_, ?_⟩
  · intro h
    exact le_min h (le_max_left _ _)
  · intro h
    apply min_eq_left
    exact le_trans (le_of_lt h) (le_max_left _ _)

/-- When the scaled width, as computed, is at least the viewport width, the computed
`minX` is not positive. -/
theorem zoomMinX_nonpos (n : Nat) (scale : ℚ) (h : 870 ≤ fmul (totalWidth n) scale) :
    zoomMinX n scale ≤ 0 := by
  unfold zoomMinX fadd
  apply roundDouble_nonpos
  have hneg : fmul (-(totalWidth n)) scale = -fmul (totalWidth n) scale := by
    unfold fmul
    rw [neg_mul, roundDouble_neg]
  rw [hneg]
  unfold viewWidth
  linarith

/-- Evaluation of a rounding: a positive normal number between `2^k` and `2^(k+1)` rounds
to `r * 2^(k-52)` when `r` is the one whole number within a half of its scaled value. -/
theorem roundDouble_eq_of_near (q : ℚ) (k r : ℤ) (hlo : (2 : ℚ) ^ k ≤ q)
    (hhi : q < (2 : ℚ) ^ (k + 1)) (hk : -1022 ≤ k)
    (hnear : |q / 2 ^ (k - 52) - (r : ℚ)| < 1 / 2) :
    roundDouble q = (r : ℚ) * 2 ^ (k - 52) := by
  have hqpos : 0 < q := lt_of_lt_of_le (zpow_pos (by norm_num) _) hlo
  have hlog : Int.log 2 q = k := by
    have h1 : k ≤ Int.log 2 q := (Int.zpow_le_iff_le_log (by norm_num) hqpos).mp (by exact_mod_cast hlo)
    have h2 : Int.log 2 q < k + 1 := (Int.lt_zpow_iff_log_lt (by norm_num) hqpos).mp (by exact_mod_cast hhi)
    omega
  have he : binaryExponent q = k - 52 := by
    unfold binaryExponent
    rw [abs_of_pos hqpos, hlog]
    apply max_eq_left
    omega
  have hr : roundHalfEven (q / 2 ^ (k - 52)) = r := by
    have h := roundHalfEven_abs_sub_le (q / 2 ^ (k - 52))
    rw [abs_le] at h
    rw [abs_lt] at hnear
    have h1 : ((roundHalfEven (q / 2 ^ (k - 52)) : ℤ) : ℚ) < (r : ℚ) + 1 := by linarith [h.1, h.2, hnear.1, hnear.2]
    have h2 : (r : ℚ) - 1 < ((roundHalfEven (q / 2 ^ (k - 52)) : ℤ) : ℚ) := by linarith [h.1, h.2, hnear.1, hnear.2]
    have h1' : roundHalfEven (q / 2 ^ (k - 52)) < r + 1 := by exact_mod_cast h1
    have h2' : r - 1 < roundHalfEven (q / 2 ^ (k - 52)) := by exact_mod_cast h2
    omega
  have hne : q ≠ 0 := ne_of_gt hqpos
  have hnot : ¬ q < 0 := not_lt.mpr (le_of_lt hqpos)
  simp only [roundDouble, hne, hnot, if_false, abs_of_pos hqpos, he, hr, one_mul]

theorem totalWidth_six : totalWidth 6 = 800 := by
  rw [totalWidth_eq 6 (by norm_num)]
  norm_num

/-- With six divergent axes the floor of the zoom scale is the double nearest to 1.0875. -/
theorem minScale_six : minScale 6 = 4897664594765414 / 2 ^ 52 := by
  unfold minScale fdiv viewWidth
  rw [totalWidth_six]
  rw [roundDouble_eq_of_near (870 / 800) 0 4897664594765414 (by norm_num) (by norm_num)
    (by norm_num) (by norm_num [abs_lt])]
  norm_num

/-- With six divergent axes the scaled width at the floor is computed as `870 - 2^-43`. -/
theorem scaled_width_six : roundDouble (minScale 6 * totalWidth 6) = 870 - 1 / 2 ^ 43 := by
  rw [minScale_six, totalWidth_six]
  rw [roundDouble_eq_of_near _ 9 7652600929320959 (by norm_num) (by norm_num)
    (by norm_num) (by norm_num [abs_lt])]
  norm_num

/-- With six divergent axes the lower limit at the floor is computed as `2^-43`. -/
theorem zoomMinX_six : zoomMinX 6 (minScale 6) = 1 / 2 ^ 43 := by
  have hneg : fmul (-(totalWidth 6)) (minScale 6) = -(870 - 1 / 2 ^ 43) := by
    unfold fmul
    rw [neg_mul, roundDouble_neg, mul_comm, scaled_width_six]
  unfold zoomMinX fadd viewWidth
  rw [hneg]
  have h : (-(870 - 1 / 2 ^ 43) + 870 : ℚ) = 1 / 2 ^ 43 := by norm_num
  rw [h, roundDouble_eq_of_near _ (-43) (2 ^ 52) (by norm_num) (by norm_num)
    (by norm_num) (by norm_num [abs_lt])]
  norm_num

/-- C15, as amended. For every number `n ≥ 1` of divergent axes (an array length, below
2^32), in double precision: `totalWidth = (n + 2) * 100`; the zoom scales are given the
floor `minScale`, the double nearest to `870 / totalWidth`, and the ceiling 2; at the
floor the scaled diagram width `minScale * totalWidth` is within `2^-42` of the
viewport width 870; the floor is at most the ceiling exactly when `n ≥ 3`; the applied
offset `x` is never positive, and `870 - totalWidth * scale ≤ x` holds for that lower
limit as computed whenever it is not positive, in particular at every scale whose
scaled width `totalWidth * scale` is computed as at least 870; when the computed limit
is positive, `x` is 0. -/
theorem zoom_range (n : Nat) (hn : 1 ≤ n) (hlen : n < 2 ^ 32) :
    totalWidth n = ((n : ℚ) + 2) * 100 ∧
    scaleExtent n = (roundDouble (870 / totalWidth n), 2) ∧
    |minScale n - 870 / totalWidth n| ≤ 870 / totalWidth n / 2 ^ 53 ∧
    |roundDouble (minScale n * totalWidth n) - 870| ≤ 1 / 2 ^ 42 ∧
    (minScale n ≤ 2 ↔ 3 ≤ n) ∧
    ∀ scale tx : ℚ,
      zoomMinX n scale = roundDouble (roundDouble (-(totalWidth n) * scale) + 870) ∧
      zoomOffset n scale tx ≤ 0 ∧
      (zoomMinX n scale ≤ 0 → zoomMinX n scale ≤ zoomOffset n scale tx) ∧
      (870 ≤ roundDouble (totalWidth n * scale) → zoomMinX n scale ≤ zoomOffset n scale tx) ∧
      (0 < zoomMinX n scale → zoomOffset n scale tx = 0) := by
  refine ⟨totalWidth_eq n hlen, rfl, minScale_rel n hlen, scaled_width_at_floor n hlen,
    minScale_le_two_iff n hn hlen, ?_⟩
  intro scale tx
  obtain ⟨h1, h2, h3⟩ := zoomOffset_clamp n scale tx
  exact ⟨rfl, h1, h2, fun h => h2 (zoomMinX_nonpos n scale h), h3⟩

/-- Witness for C15 as amended: three divergent axes. -/
theorem zoom_range_witness :
    (1 ≤ 3 ∧ 3 < 2 ^ 32) ∧
    (totalWidth 3 = (((3 : Nat) : ℚ) + 2) * 100 ∧
    scaleExtent 3 = (roundDouble (870 / totalWidth 3), 2) ∧
    |minScale 3 - 870 / totalWidth 3| ≤ 870 / totalWidth 3 / 2 ^ 53 ∧
    |roundDouble (minScale 3 * totalWidth 3) - 870| ≤ 1 / 2 ^ 42 ∧
    (minScale 3 ≤ 2 ↔ 3 ≤ 3) ∧
    ∀ scale tx : ℚ,
      zoomMinX 3 scale = roundDouble (roundDouble (-(totalWidth 3) * scale) + 870) ∧
      zoomOffset 3 scale tx ≤ 0 ∧
      (zoomMinX 3 scale ≤ 0 → zoomMinX 3 scale ≤ zoomOffset 3 scale tx) ∧
      (870 ≤ roundDouble (totalWidth 3 * scale) → zoomMinX 3 scale ≤ zoomOffset 3 scale tx) ∧
      (0 < zoomMinX 3 scale → zoomOffset 3 scale tx = 0)) :=
  ⟨⟨by decide, by decide⟩, zoom_range 3 (by decide) (by decide)⟩

/-- C15: counterexample. (1) With one divergent axis the diagram is 300 wide and the
floor of the zoom scale, the double nearest to 2.9, exceeds the ceiling 2. (2) With six
divergent axes the diagram is 800 wide, the floor is the double nearest to 1.0875, the
scaled width at the floor is computed as `870 - 2^-43` (869.9999999999999), not 870,
the lower limit `minX` as `2^-43`, and the offset applied at the initial transform
(translation 0) is 0, below that limit. -/
theorem zoom_range_counterexample :
    (totalWidth 1 = 300 ∧ ¬ (minScale 1 ≤ 2)) ∧
    (totalWidth 6 = 800 ∧
      minScale 6 = 4897664594765414 / 2 ^ 52 ∧
      roundDouble (minScale 6 * totalWidth 6) = 870 - 1 / 2 ^ 43 ∧
      zoomMinX 6 (minScale 6) = 1 / 2 ^ 43 ∧
      zoomOffset 6 (minScale 6) 0 = 0 ∧
      zoomOffset 6 (minScale 6) 0 < zoomMinX 6 (minScale 6)) := by
  have h1 : totalWidth 1 = 300 := by
    rw [totalWidth_eq 1 (by norm_num)]
    norm_num
  have h2 : ¬ (minScale 1 ≤ 2) := by
    rw [minScale_le_two_iff 1 (by norm_num) (by norm_num)]
    norm_num
  have h3 : zoomOffset 6 (minScale 6) 0 = 0 := by
    unfold zoomOffset
    rw [zoomMinX_six]
    norm_num
  refine ⟨⟨h1, h2⟩, totalWidth_six, minScale_six, scaled_width_six, zoomMinX_six, h3, ?_⟩
  rw [h3, zoomMinX_six]
  norm_num

/-! ## Theorems: the order of the axis keys -/

theorem isDigit_iff (c : Char) : c.isDigit = true ↔ 48 ≤ c.toNat ∧ c.toNat ≤ 57 := by
  unfold Char.isDigit Char.toNat
  simp only [Bool.and_eq_true, decide_eq_true_eq, ge_iff_le]
  rw [UInt32.le_def, UInt32.le_def, BitVec.le_def, BitVec.le_def]
  rfl

theorem radixDigit_ten (c : Char) (h : c.isDigit = true) :
    radixDigit 10 c = some (c.toNat - 48) := by
  have hd := (isDigit_iff c).mp h
  unfold radixDigit
  simp only [hd, and_self, if_true]
  have : c.toNat - 48 < 10 := by omega
  simp [this]

theorem not_whiteSpace_of_digit (c : Char) (h : c.isDigit = true) : isJsWhiteSpace c = false := by
  have hd := (isDigit_iff c).mp h
  unfold isJsWhiteSpace
  simp only [Bool.or_eq_false_iff, decide_eq_false_iff_not, Bool.and_eq_false_imp, decide_eq_true_eq]
  omega

theorem foldl_radix_ten (ds : List Char) (hall : ∀ c ∈ ds, c.isDigit = true) (init : Nat) :
    ds.foldl (fun acc c => 10 * acc + (radixDigit 10 c).getD 0) init
      = ds.foldl (fun acc c => 10 * acc + (c.toNat - 48)) init := by
  induction ds generalizing init with
  | nil => rfl
  | cons x xs ih =>
    simp only [List.foldl_cons]
    rw [radixDigit_ten x (hall x (List.mem_cons_self _ _))]
    exact ih (fun c hc => hall c (List.mem_cons_of_mem _ hc)) _

theorem parseInt_digits (d : Char) (ds : List Char) (hall : ∀ c ∈ d :: ds, c.isDigit = true) :
    parseInt (d :: ds) = some (parseDigits (d :: ds) : Int) := by
  have hd : d.isDigit = true := hall d (List.mem_cons_self _ _)
  have hdn := (isDigit_iff d).mp hd
  have hws : isJsWhiteSpace d = false := not_whiteSpace_of_digit d hd
  have hminus : d ≠ '-' := by
    intro hc; subst hc; revert hdn; decide
  have hplus : d ≠ '+' := by
    intro hc; subst hc; revert hdn; decide
  have hdrop : (d :: ds).dropWhile isJsWhiteSpace = d :: ds := by
    rw [List.dropWhile_cons_of_neg]; simp [hws]
  have htake : (d :: ds).takeWhile (fun c => (radixDigit 10 c).isSome) = d :: ds := by
    rw [List.takeWhile_eq_self_iff]
    intro c hc
    rw [radixDigit_ten c (hall c hc)]
    rfl
  have hnohex : (match (d :: ds) with
    | '0' :: 'x' :: _ => true
    | '0' :: 'X' :: _ => true
    | _ => false) = false := by
    split
    · rename_i heq
      simp only [List.cons.injEq] at heq
      have hx : ('x' : Char).isDigit = true := hall 'x' (by rw [heq.2]; simp)
      exact absurd hx (by decide)
    · rename_i heq
      simp only [List.cons.injEq] at heq
      have hx : ('X' : Char).isDigit = true := hall 'X' (by rw [heq.2]; simp)
      exact absurd hx (by decide)
    · rfl
  have hsign : (match (d :: ds) with
    | '-' :: t => t
    | '+' :: t => t
    | _ => d :: ds) = d :: ds := by
    split
    · rename_i heq
      simp only [List.cons.injEq] at heq
      exact absurd heq.1 hminus
    · rename_i heq
      simp only [List.cons.injEq] at heq
      exact absurd heq.1 hplus
    · rfl
  unfold parseInt
  simp only [hdrop, hsign, hnohex, Bool.false_eq_true, if_false, htake, List.isEmpty_cons,
    List.head?_cons, Option.some.injEq, hminus]
  rw [foldl_radix_ten (d :: ds) hall 0]
  rfl

theorem takeWhile_digit_eq (l : List Char)
    (hall : ∀ c ∈ l.takeWhile (fun c => decide (c ≠ '_')), c.isDigit = true) :
    l.takeWhile Char.isDigit = l.takeWhile (fun c => decide (c ≠ '_')) := by
  induction l with
  | nil => rfl
  | cons x xs ih =>
    by_cases hx : x = '_'
    · subst hx
      rw [List.takeWhile_cons_of_neg (by decide), List.takeWhile_cons_of_neg (by simp)]
    · have hcons : (x :: xs).takeWhile (fun c => decide (c ≠ '_'))
          = x :: xs.takeWhile (fun c => decide (c ≠ '_')) := by
        simp [List.takeWhile_cons, hx]
      rw [hcons] at hall ⊢
      have hdx : x.isDigit = true := hall x (List.mem_cons_self _ _)
      rw [List.takeWhile_cons_of_pos hdx, ih (fun c hc => hall c (List.mem_cons_of_mem _ hc))]

/-- When only digits follow the last underscore of a key, they are the key's trailing
id, and `parseInt` reads its value. -/
theorem parseInt_lastSegment (key : String) (hne : lastSegment key.data ≠ [])
    (hall : ∀ c ∈ lastSegment key.data, c.isDigit = true) :
    parseInt (lastSegment key.data) = some (trailingId key : Int) := by
  have htw : key.data.reverse.takeWhile Char.isDigit
      = key.data.reverse.takeWhile (fun c => decide (c ≠ '_')) := by
    apply takeWhile_digit_eq
    intro c hc
    exact hall c (by unfold lastSegment; exact List.mem_reverse.mpr hc)
  have hsuffix : numericSuffix key.data = some (parseDigits (lastSegment key.data)) := by
    unfold numericSuffix
    rw [htw]
    show (match lastSegment key.data with
      | [] => none
      | d :: ds => some (parseDigits (d :: ds))) = _
    cases hseg : lastSegment key.data with
    | nil => exact absurd hseg hne
    | cons d ds => rfl
  unfold trailingId
  rw [hsuffix]
  cases hseg : lastSegment key.data with
  | nil => exact absurd hseg hne
  | cons d ds =>
    rw [hseg] at hall
    exact parseInt_digits d ds hall

/-- On keys whose last segment is a run of digits, the comparator's relation is the
order of the trailing ids. -/
theorem chainKeyLe_iff (a b : String)
    (ha : parseInt (lastSegment a.data) = some (trailingId a : Int))
    (hb : parseInt (lastSegment b.data) = some (trailingId b : Int)) :
    chainKeyLe a b ↔ trailingId a ≤ trailingId b := by
  unfold chainKeyLe chainKeyCompare
  rw [ha, hb]
  simp only []
  omega

/-- C14, as amended. For every record whose proposal axis keys all end in an
underscore-separated run of decimal digits (only digits, and at least one, follow the
key's last underscore), the list of axis keys extracted from it holds exactly the
record's keys that pass the filter, `parseInt` reads each key's trailing id, and the
list is ordered by non-decreasing trailing id. -/
theorem chainKeys_sorted (r : VoteRecord)
    (hwf : ∀ key ∈ r.map Prod.fst, isChainKey key = true →
      lastSegment key.data ≠ [] ∧ ∀ c ∈ lastSegment key.data, c.isDigit = true) :
    (chainKeys r).Perm ((r.map Prod.fst).filter isChainKey) ∧
    (∀ key ∈ chainKeys r, parseInt (lastSegment key.data) = some (trailingId key : Int)) ∧
    (chainKeys r).Sorted (fun a b => trailingId a ≤ trailingId b) := by
  have hparse : ∀ key ∈ (r.map Prod.fst).filter isChainKey,
      parseInt (lastSegment key.data) = some (trailingId key : Int) := by
    intro key hkey
    obtain ⟨hmem, hck⟩ := List.mem_filter.mp hkey
    obtain ⟨hne, hall⟩ := hwf key hmem hck
    exact parseInt_lastSegment key hne hall
  have hperm : (chainKeys r).Perm ((r.map Prod.fst).filter isChainKey) :=
    List.perm_insertionSort _ _
  refine ⟨hperm, fun key hkey => hparse key (hperm.mem_iff.mp hkey), ?_⟩
  haveI : IsTotal String (fun a b => trailingId a ≤ trailingId b) :=
    ⟨fun a b => le_total (trailingId a) (trailingId b)⟩
  haveI : IsTrans String (fun a b => trailingId a ≤ trailingId b) :=
    ⟨fun a b c hab hbc => le_trans hab hbc⟩
  have hmap := List.map_insertionSort chainKeyLe (fun a b => trailingId a ≤ trailingId b) id
    ((r.map Prod.fst).filter isChainKey)
    (fun a ha b hb => chainKeyLe_iff a b (hparse a ha) (hparse b hb))
  rw [List.map_id, List.map_id] at hmap
  unfold chainKeys
  rw [hmap]
  exact List.sorted_insertionSort _ _

/-- Witness for C14 as amended: the record of `A`, with the keys `cosmoshub_1` and
`cosmoshub_2`. -/
theorem chainKeys_sorted_witness :
    (∀ key ∈ exVotesA.map Prod.fst, isChainKey key = true →
      lastSegment key.data ≠ [] ∧ ∀ c ∈ lastSegment key.data, c.isDigit = true) ∧
    ((chainKeys exVotesA).Perm ((exVotesA.map Prod.fst).filter isChainKey) ∧
    (∀ key ∈ chainKeys exVotesA,
      parseInt (lastSegment key.data) = some (trailingId key : Int)) ∧
    (chainKeys exVotesA).Sorted (fun a b => trailingId a ≤ trailingId b)) :=
  ⟨by decide, chainKeys_sorted exVotesA (by decide)⟩

/-- C14: counterexample. The keys `cosmoshub5` and `cosmoshub3` match the pattern of
lower-case letters followed by digits, `parseInt` of the text after the last underscore
(the whole key) is `NaN` for both, and the extracted list keeps them in the record's
order, with trailing ids 5 then 3. -/
theorem chainKeys_counterexample :
    isChainKey "cosmoshub5" = true ∧ isChainKey "cosmoshub3" = true ∧
    parseInt (lastSegment "cosmoshub5".data) = none ∧
    chainKeys exPlainKeys = ["cosmoshub5", "cosmoshub3"] ∧
    trailingId "cosmoshub5" = 5 ∧ trailingId "cosmoshub3" = 3 ∧
    ¬ (chainKeys exPlainKeys).Sorted (fun a b => trailingId a ≤ trailingId b) := by
  decide

/-! ## Theorems: the sunburst of a hidden validator -/

/-- C12, as amended. For every previously drawn SVG content and every input with the
validator currently hidden, the redraw effect leaves the SVG exactly as it was (it
draws nothing and removes nothing, so the SVG holds no drawn elements precisely when it
held none before), and the participation rate computed for that validator is 0. -/
theorem sunburstEffect_hidden (isValidatorHidden : String → Bool)
    (selectedChain validator : String) (data : Option (List Proposal))
    (parallelData : Option (List VoteRecord)) (width height : ℚ) (prev : SunburstSvg)
    (hhidden : isValidatorHidden validator = true) :
    sunburstEffect isValidatorHidden selectedChain validator data parallelData width height prev
      = prev ∧
    ((sunburstEffect isValidatorHidden selectedChain validator data parallelData width height
        prev).elements = [] ↔ prev.elements = []) ∧
    calculateParticipationRate isValidatorHidden selectedChain (some validator) data parallelData
      = some 0 := by
  have heff : sunburstEffect isValidatorHidden selectedChain validator data parallelData
      width height prev = prev := by
    cases data <;> cases parallelData <;> simp [sunburstEffect, hhidden]
  refine ⟨heff, by rw [heff], ?_⟩
  exact calculateParticipationRate_zero _ _ _ _ _
    (Or.inr (Or.inr (Or.inr (Or.inr (Or.inl ⟨validator, rfl, hhidden⟩)))))

/-- Witness for C12 as amended: validator `B` hidden, nothing drawn before. -/
theorem sunburstEffect_hidden_witness :
    (fun _ : String => true) "B" = true ∧
    (sunburstEffect (fun _ => true) "cosmoshub" "B" (some exProposals)
        (some [exVotesA, exVotesB]) 200 200 emptySvg = emptySvg ∧
    ((sunburstEffect (fun _ => true) "cosmoshub" "B" (some exProposals)
        (some [exVotesA, exVotesB]) 200 200 emptySvg).elements = [] ↔ emptySvg.elements = []) ∧
    calculateParticipationRate (fun _ => true) "cosmoshub" (some "B") (some exProposals)
      (some [exVotesA, exVotesB]) = some 0) :=
  ⟨rfl, sunburstEffect_hidden (fun _ => true) "cosmoshub" "B" (some exProposals)
    (some [exVotesA, exVotesB]) 200 200 emptySvg rfl⟩

/-- The sunburst drawn for the visible validator `B`: two arcs of the inner ring, two of
the outer ring, and the three lines of the centre label. -/
theorem exDrawnSvg_elements :
    exDrawnSvg.elements =
      [SunburstElement.arc 1 "Text" "#1f77b4", SunburstElement.arc 1 "Unknown" "#ff7f0e",
        SunburstElement.arc 2 "P1" "#2ecc71", SunburstElement.arc 2 "P2" "#95a5a6",
        SunburstElement.nameLine (toUtf16 "B"),
        SunburstElement.clusterLine (some (FieldVal.num 2)),
        SunburstElement.participationLine (some 50)] := by
  decide!

/-- C12: counterexample. The sunburst of `B` was drawn while `B` was visible; with `B`
hidden the redraw effect returns before removing anything, so afterwards the SVG still
holds the seven drawn elements. -/
theorem sunburstEffect_hidden_counterexample :
    (sunburstEffect (fun _ => true) "cosmoshub" "B" (some exProposals)
        (some [exVotesA, exVotesB]) 200 200 exDrawnSvg).elements =
      [SunburstElement.arc 1 "Text" "#1f77b4", SunburstElement.arc 1 "Unknown" "#ff7f0e",
        SunburstElement.arc 2 "P1" "#2ecc71", SunburstElement.arc 2 "P2" "#95a5a6",
        SunburstElement.nameLine (toUtf16 "B"),
        SunburstElement.clusterLine (some (FieldVal.num 2)),
        SunburstElement.participationLine (some 50)] ∧
    (sunburstEffect (fun _ => true) "cosmoshub" "B" (some exProposals)
        (some [exVotesA, exVotesB]) 200 200 exDrawnSvg).elements ≠ [] := by
  have h : sunburstEffect (fun _ => true) "cosmoshub" "B" (some exProposals)
      (some [exVotesA, exVotesB]) 200 200 exDrawnSvg = exDrawnSvg := rfl
  rw [h, exDrawnSvg_elements]
  exact ⟨rfl, by simp⟩

end FindBetterFriends
